import Mathlib

/-!
Verification of the command execution and job-control engine of the `tish`
shell (Rust). The definitions below are a shallow embedding of the source
files `src/shell/tokenizer.rs`, `src/os/env.rs`, `src/command.rs`,
`src/jobs.rs`, `src/shell/signals.rs` and `src/shell.rs`. Strings are
modelled by Lean `String` (a wrapper around `List Char`); Rust byte indices
and Lean char indices coincide on the ASCII inputs the theorems use.
-/

namespace Tish

/-! ## String helpers (ASCII-level models of the Rust `str` operations used) -/

/-- Model of Rust `str::split('c')`: split a char list on every occurrence of
a separator char; empty segments are kept (as Rust does). -/
def splitChar (sep : Char) : List Char → List (List Char)
  | [] => [[]]
  | c :: rest =>
    if c = sep then
      [] :: splitChar sep rest
    else
      match splitChar sep rest with
      | s :: ss => (c :: s) :: ss
      | [] => [[c]]

/-- Model of Rust `str::split("&&")`: split on each leftmost-first,
non-overlapping occurrence of the two-character separator `&&`. -/
def splitAmpAmp : List Char → List (List Char)
  | '&' :: '&' :: rest => [] :: splitAmpAmp rest
  | c :: rest =>
    match splitAmpAmp rest with
    | s :: ss => (c :: s) :: ss
    | [] => [[c]]
  | [] => [[]]

/-- Model of Rust `str::trim` (ASCII whitespace suffices for our inputs). -/
def trimList (cs : List Char) : List Char :=
  ((cs.dropWhile Char.isWhitespace).reverse.dropWhile Char.isWhitespace).reverse

/-- Model of Rust `str::contains(&str)` (substring containment). -/
def containsSub (haystack needle : List Char) : Bool :=
  match haystack with
  | [] => needle.isEmpty
  | _ :: rest => needle.isPrefixOf haystack || containsSub rest needle

/-- Substring containment lifted to `String`. -/
def strContainsSub (haystack needle : String) : Bool :=
  containsSub haystack.data needle.data

/-! ## Tokenizer (`src/shell/tokenizer.rs`)

State of `struct Tokenizer { current: Option<String>, has_redirection: bool }`.
The field `open` of the Rust scanning loops is called `opn` here (`open` is a
Lean keyword). -/

structure Tokenizer where
  current : Option (List Char)
  has_redirection : Bool
  deriving Repr, DecidableEq

/-- `Tokenizer::new`: `has_redirection` is set iff the line contains the
substring `" > "` or `" < "`. -/
def Tokenizer.new (line : List Char) : Tokenizer :=
  { current := some line,
    has_redirection := containsSub line [' ', '>', ' '] || containsSub line [' ', '<', ' '] }

/-- The scanning loop of `Tokenizer::next`: walks the chars, toggling the
quote flag on `"` and `'` (the quote chars are not pushed to the word),
breaking at the first space seen outside quotes. Returns the collected word
and `some (i+1)` for the break position (Rust `stop`), or `none` when the
loop ran off the end (Rust `stop = usize::MAX`). -/
def scanWord : List Char → Nat → Nat → (List Char × Option Nat)
  | [], _, _ => ([], none)
  | c :: rest, i, opn =>
    if c = '"' ∨ c = '\'' then
      scanWord rest (i + 1) (opn ^^^ 1)
    else if c = ' ' ∧ opn = 0 then
      ([], some (i + 1))
    else
      let (nxt, stop) := scanWord rest (i + 1) opn
      (c :: nxt, stop)

/-- The body of `Tokenizer::next` for a taken `current` string: scan one
word; the remainder is re-stored only when it is nonempty, and the word is
returned only when it is nonempty. -/
def nextAux (cur : List Char) : Option (List Char) × Option (List Char) :=
  let (nxt, stopO) := scanWord cur 0 0
  let remainder : List Char :=
    match stopO with
    | some stop => if stop < cur.length then cur.drop stop else []
    | none => []
  (if nxt ≠ [] then some nxt else none,
   if remainder ≠ [] then some remainder else none)

/-- UTF-8 byte length of a string, as Rust's `str::len`. -/
def byteLen (cs : List Char) : Nat :=
  (cs.map Char.utf8Size).sum

/-- Byte-indexed suffix, as Rust's `&current[stop..]`: drop whole
characters until `n` bytes are consumed; `none` models the panic Rust
raises when the index is not a character boundary. -/
def byteDrop : Nat → List Char → Option (List Char)
  | 0, cs => some cs
  | _ + 1, [] => none
  | n + 1, c :: rest =>
    if c.utf8Size ≤ n + 1 then byteDrop (n + 1 - c.utf8Size) rest else none

/-- Byte-indexed reference model of the remainder computation in
`Tokenizer::next`: the Rust `stop` is a char count (from
`chars().enumerate()`), but `current.len()` and `current[stop..]` are
byte-indexed; `none` is the slice panic. On single-byte text this agrees
with `nextAux` (`nextAux_agrees_ascii`); on multi-byte text the two
diverge (`next_multibyte_divergence`), so theorems stated over `nextAux`
speak about the program only for single-byte (ASCII) input. -/
def nextAuxB (cur : List Char) : Option (Option (List Char) × Option (List Char)) :=
  let (nxt, stopO) := scanWord cur 0 0
  let tok := if nxt ≠ [] then some nxt else none
  match stopO with
  | none => some (tok, none)
  | some stop =>
    if stop < byteLen cur then
      match byteDrop stop cur with
      | none => none
      | some remainder =>
        some (tok, if remainder ≠ [] then some remainder else none)
    else
      some (tok, none)

/-- `Tokenizer::next` (the `Iterator` impl). -/
def Tokenizer.next (t : Tokenizer) : Option (List Char) × Tokenizer :=
  match t.current with
  | none => (none, t)
  | some cur =>
    let (tok, rem) := nextAux cur
    (tok, { t with current := rem })

/-- `Tokenizer::peek`: scan the next word without consuming. -/
def Tokenizer.peek (t : Tokenizer) : List Char :=
  match t.current with
  | none => []
  | some cur => (scanWord cur 0 0).1

/-- `Tokenizer::is_empty`. -/
def Tokenizer.is_empty (t : Tokenizer) : Bool :=
  t.current.isNone

/-- Length measure of the tokenizer state, used for termination: `next`
strictly shrinks it whenever `current` is `some`. -/
def Tokenizer.measure (t : Tokenizer) : Nat :=
  match t.current with
  | none => 0
  | some cur => cur.length + 1

/-!
The tokenizer-consuming `while` loops below terminate because `next`
strictly shrinks `current`; they are written with a structural fuel
argument (so concrete runs reduce inside the kernel), the wrappers pass
`t.measure` as fuel, and the `*_fuel_le` lemmas show any fuel of at least
`t.measure` computes the same result, so the fuel is an implementation
device, not a semantic bound. -/

/-- The `while let Some(token) = tokenizer.next()` iteration pattern: collect
words until `next` returns `None` (even if input remains after a `None`). -/
def collectFuel : Nat → Tokenizer → List (List Char)
  | 0, _ => []
  | fuel + 1, t =>
    match t.next with
    | (none, _) => []
    | (some a, t') => a :: collectFuel fuel t'

def Tokenizer.collect (t : Tokenizer) : List (List Char) :=
  collectFuel t.measure t

/-- `Tokenizer::get_args`: collect words from repeated `next` calls, stopping
at the first `None` or at a literal `&&` word. -/
def getArgsFuel : Nat → Tokenizer → List (List Char) × Tokenizer
  | 0, t => ([], t)
  | fuel + 1, t =>
    match t.next with
    | (none, t') => ([], t')
    | (some a, t') =>
      if a = ['&', '&'] then
        ([], t')
      else
        let (rest, t'') := getArgsFuel fuel t'
        (a :: rest, t'')

def Tokenizer.get_args (t : Tokenizer) : List (List Char) × Tokenizer :=
  getArgsFuel t.measure t

/-- `Tokenizer::args_before_redirection`: when `has_redirection`, collect
words until `peek` is a redirection operator. The Rust loop calls
`self.next().unwrap()`, which panics when `next` returns `None` while
`current` is still `Some`; that case is modelled by `none`. -/
def argsBeforeRedirFuel : Nat → Tokenizer → Option (List (List Char) × Tokenizer)
  | 0, t => some ([], t)
  | fuel + 1, t =>
    match t.current with
    | none => some ([], t)
    | some _ =>
      if t.peek = ['>'] ∨ t.peek = ['<'] ∨ t.peek = ['>', '>'] then
        some ([], t)
      else
        match t.next with
        | (none, _) => none
        | (some a, t') =>
          match argsBeforeRedirFuel fuel t' with
          | none => none
          | some (rest, t'') => some (a :: rest, t'')

def Tokenizer.args_before_redirection (t : Tokenizer) :
    Option (List (List Char) × Tokenizer) :=
  if t.has_redirection = false then
    some t.get_args
  else
    argsBeforeRedirFuel t.measure t

/-! ## Environment expansion (`src/os/env.rs`, `EnvManager`)

The process environment and the `getpwnam` user database are external to the
program; they enter the model as the parameter `Env`. `vars name` models
`std::env::var(name)` (`none` = unset), `pw user` models the home directory
returned by `getpwnam(user)`. -/

structure Env where
  vars : String → Option String
  pw : String → Option String

/-- The environment with no variables set and an empty user database. -/
def env0 : Env := { vars := fun _ => none, pw := fun _ => none }

/-- `EnvManager::expand_variable`, applied to one token that starts with `$`:
skip the `$`; read a `{}`-delimited or alphanumeric/underscore name; an empty
name yields the literal `"$"`, otherwise the variable's value
(`unwrap_or_default`, so the empty string when unset). Any token text after
the variable name is discarded (the Rust method returns without consuming
it, and `expand` pushes only the returned value). -/
def expand_variable (e : Env) (tok : List Char) : List Char :=
  let rest := tok.drop 1
  let name :=
    if rest.head? = some '{' then
      (rest.drop 1).takeWhile (fun c => c ≠ '}')
    else
      rest.takeWhile (fun c => c.isAlphanum ∨ c = '_')
  if name = [] then ['$'] else ((e.vars (String.mk name)).getD "").data

/-- `EnvManager::expand_home`, applied to one token that starts with `~`:
take the non-whitespace prefix as the path; strip the `~`; `~/rest` becomes
`$HOME/rest` when `HOME` is set; `~user/rest` is looked up through `getpwnam`;
otherwise the path is returned with its `~` restored. -/
def expand_home (e : Env) (input : List Char) : List Char :=
  let path := input.takeWhile (fun c => ¬ c.isWhitespace)
  if path = [] then
    match e.vars "HOME" with
    | some home => home.data
    | none => ['~']
  else
    let path2 := if path.head? = some '~' then path.drop 1 else path
    if path2.head? = some '/' then
      match e.vars "HOME" with
      | some home => home.data ++ path2
      | none => '~' :: path2
    else
      -- split_once('/'): (user, rest) or (path2, "")
      let user := path2.takeWhile (fun c => c ≠ '/')
      let rest := (path2.dropWhile (fun c => c ≠ '/')).drop 1
      match e.pw (String.mk user) with
      | some home => home.data ++ '/' :: rest
      | none => '~' :: path2

/-- The per-token body of the `EnvManager::expand` loop. The first branch
(tokens that both start and end in a quote char) is dead code: `Tokenizer`
words never contain quote chars; it is kept to mirror the source. -/
def expand_token (e : Env) (tok : List Char) : List Char :=
  if (tok.head? = some '"' ∧ tok.getLast? = some '"') ∨
     (tok.head? = some '\'' ∧ tok.getLast? = some '\'') then
    let inner := (tok.drop 1).dropLast
    if inner.head? = some '~' then expand_home e inner
    else if inner.head? = some '$' then expand_variable e inner
    else inner
  else if tok.head? = some '~' then expand_home e tok
  else if tok.head? = some '$' then expand_variable e tok
  else tok

/-- `EnvManager::expand`: tokenize the statement, expand each word, and join
the results with single spaces. -/
def expand (e : Env) (input : List Char) : List Char :=
  List.intercalate [' '] (((Tokenizer.new input).collect).map (expand_token e))

/-! ## Command model and pipeline parser (`src/command.rs`, `TishCommand`)

`Option`-valued parsing functions use `none` for a Rust panic (the
`unwrap` in `args_before_redirection` and indexing an empty command list);
`some` carries the value actually produced. -/

inductive TishCmd : Type where
  | mk (program : String) (args : List String) (background : Bool)
       (redirect_in : Option String) (redirect_out : Option (String × Bool))
       (pipe_to : Option TishCmd) : TishCmd

def TishCmd.program : TishCmd → String
  | .mk p _ _ _ _ _ => p

def TishCmd.args : TishCmd → List String
  | .mk _ a _ _ _ _ => a

def TishCmd.background : TishCmd → Bool
  | .mk _ _ b _ _ _ => b

def TishCmd.redirect_in : TishCmd → Option String
  | .mk _ _ _ r _ _ => r

def TishCmd.redirect_out : TishCmd → Option (String × Bool)
  | .mk _ _ _ _ r _ => r

def TishCmd.pipe_to : TishCmd → Option TishCmd
  | .mk _ _ _ _ _ p => p

/-- Number of stages in a `pipe_to` chain. -/
def TishCmd.chainLength : TishCmd → Nat
  | .mk _ _ _ _ _ none => 1
  | .mk _ _ _ _ _ (some t) => t.chainLength + 1

/-- The final stage of a `pipe_to` chain (the one with `pipe_to = none`). -/
def TishCmd.lastStage : TishCmd → TishCmd
  | .mk p a b ri ro none => .mk p a b ri ro none
  | .mk _ _ _ _ _ (some t) => t.lastStage

/-- The `while !tokenizer.is_empty()` redirection scan at the end of
`TishCommand::parse_single_command`: `<`, `>` and `>>` operators consume the
following word as the redirection path; every other word (and a `None` from
`next`) is skipped by the wildcard arm. The loop terminates because `next`
shrinks `current`; the structural fuel is set to the measure and shown
sufficient below. -/
def redirLoopFuel : Nat → Tokenizer → Option String → Option (String × Bool) →
    Option String × Option (String × Bool)
  | 0, _, rin, rout => (rin, rout)
  | fuel + 1, t, rin, rout =>
    match t.current with
    | none => (rin, rout)
    | some _ =>
      match t.next with
      | (some a, t') =>
        if a = ['<'] then
          match t'.next with
          | (some f, t'') => redirLoopFuel fuel t'' (some (String.mk f)) rout
          | (none, t'') => redirLoopFuel fuel t'' rin rout
        else if a = ['>'] then
          match t'.next with
          | (some f, t'') => redirLoopFuel fuel t'' rin (some (String.mk f, false))
          | (none, t'') => redirLoopFuel fuel t'' rin rout
        else if a = ['>', '>'] then
          match t'.next with
          | (some f, t'') => redirLoopFuel fuel t'' rin (some (String.mk f, true))
          | (none, t'') => redirLoopFuel fuel t'' rin rout
        else
          redirLoopFuel fuel t' rin rout
      | (none, t') => redirLoopFuel fuel t' rin rout

def redirLoop (t : Tokenizer) (rin : Option String) (rout : Option (String × Bool)) :
    Option String × Option (String × Bool) :=
  redirLoopFuel t.measure t rin rout

/-- The token selection at the top of `TishCommand::parse_single_command`:
`if tokenizer.has_redirection() { tokenizer.args_before_redirection() } else
{ tokenizer.get_args() }`. -/
def stage_tokens (t : Tokenizer) : Option (List (List Char) × Tokenizer) :=
  if t.has_redirection then t.args_before_redirection else some t.get_args

/-- `TishCommand::parse_single_command`. `none` models the panic reachable
through `args_before_redirection`'s `unwrap`. -/
def parse_single_command (t : Tokenizer) : Option TishCmd :=
  match stage_tokens t with
  | none => none
  | some (tokens, t') =>
    if tokens = [] then
      some (TishCmd.mk "" [] false none none none)
    else
      let program := String.mk (tokens.headI)
      let args := tokens.drop 1
      let background := decide (args.getLast? = some ['&'])
      let args := if background then args.dropLast else args
      let (rin, rout) := redirLoop t' none none
      some (TishCmd.mk program (args.map String.mk) background rin rout none)

/-- Replace the `pipe_to` field (the assignment `current_cmd.pipe_to = ...`
in `TishCommand::parse`). -/
def set_pipe : TishCmd → Option TishCmd → TishCmd
  | .mk p a b ri ro _, tail => .mk p a b ri ro tail

/-- The reversed stage-linking loop of `TishCommand::parse`: stages are
parsed right to left and each one's `pipe_to` is set to the chain built so
far, so the head of the result is the leftmost textual stage. -/
def chainOf : List (List Char) → Option (Option TishCmd)
  | [] => some none
  | part :: rest => do
    let tail ← chainOf rest
    match parse_single_command (Tokenizer.new part) with
    | none => none
    | some c => some (some (set_pipe c tail))

/-- The `parse_command` closure of `TishCommand::parse`: expand the
statement; if the expansion contains a `|` (quoted or not — the test is a
plain `char` containment), split on every `|`, trim, drop empty stages and
link the survivors; otherwise parse the whole expansion as one stage. -/
def parse_command (e : Env) (cmd_str : List Char) : Option (Option TishCmd) :=
  if (expand e cmd_str).contains '|' then
    chainOf (((splitChar '|' (expand e cmd_str)).map trimList).filter (fun s => s ≠ []))
  else
    match parse_single_command (Tokenizer.new (expand e cmd_str)) with
    | none => none
    | some c => some (some c)

/-- `TishCommand::parse`: split the raw line on `&&`, trim, drop empty
statements, and parse each statement (`filter_map`). -/
def parse (e : Env) (input : List Char) : Option (List TishCmd) :=
  if trimList input = [] then
    some []
  else
    go (((splitAmpAmp input).map trimList).filter (fun s => s ≠ []))
where
  go : List (List Char) → Option (List TishCmd)
    | [] => some []
    | s :: rest =>
      match parse_command e s with
      | none => none
      | some none => go rest
      | some (some c) => (go rest).map (c :: ·)

/-! ## Job table (`src/jobs.rs`)

The `HashMap<id_t, Job>` keyed by pid is modelled as the list of its values;
every insertion uses the job's own pid as the key, so the key is recoverable
from the value. Process pids come from the OS and enter the model as
operation parameters, as do the success of `kill` calls and process
liveness. -/

inductive JobStatus where
  | Running : JobStatus
  | Suspended : JobStatus
  | Completed (code : Int) : JobStatus
  deriving Repr, DecidableEq

structure Job where
  id : Nat
  pid : Nat
  status : JobStatus
  command : String
  args : List String
  deriving Repr, DecidableEq

structure JobManager where
  jobs : List Job
  job_counter : Nat
  deriving Repr, DecidableEq

/-- `JobManager::new`. -/
def JobManager.new : JobManager :=
  { jobs := [], job_counter := 1 }

/-- `HashMap::insert` keyed by pid: replace the entry with the same pid, or
add the job when the pid is new. -/
def insertJob (jobs : List Job) (j : Job) : List Job :=
  if jobs.any (fun x => x.pid = j.pid) then
    jobs.map (fun x => if x.pid = j.pid then j else x)
  else
    jobs ++ [j]

/-- `JobManager::add_job` (successful-spawn path, with the child pid reported
by the OS): allocate `job_counter` with `fetch_add(1)` and insert a Running
job. A failed spawn returns before `fetch_add` and leaves the state
unchanged, so it is not an operation of the model. -/
def JobManager.add_job (m : JobManager) (pid : Nat) (command : String)
    (args : List String) : JobManager × Nat :=
  let job_id := m.job_counter
  let j : Job := { id := job_id, pid := pid, status := .Running,
                   command := command, args := args }
  ({ jobs := insertJob m.jobs j, job_counter := m.job_counter + 1 }, job_id)

/-- `JobManager::contains_pid`. -/
def JobManager.contains_pid (m : JobManager) (pid : Nat) : Bool :=
  m.jobs.any (fun j => j.pid = pid)

/-- `JobManager::get_job_by_id`. -/
def JobManager.get_job_by_id (m : JobManager) (job_id : Nat) : Option Job :=
  m.jobs.find? (fun j => j.id = job_id)

/-- `JobManager::get_last_suspended`: `max_by_key(id)` over the Suspended
jobs; Rust's `max_by_key` keeps the later element on ties. -/
def JobManager.get_last_suspended (m : JobManager) : Option Job :=
  (m.jobs.filter (fun j => j.status = .Suspended)).foldl
    (fun acc j =>
      match acc with
      | none => some j
      | some a => if a.id ≤ j.id then some j else some a)
    none

/-- `JobManager::remove_job`. `kill_ok` tells whether the
SIGTERM-then-SIGKILL escalation succeeded (an ESRCH on SIGTERM counts as
success: the process is already gone). Returns the new state and whether the
call returned `Ok`; on any `Err` the table is unchanged. -/
def JobManager.remove_job (m : JobManager) (pid : Nat) (kill_ok : Bool) :
    JobManager × Bool :=
  if m.jobs.any (fun j => j.pid = pid) then
    if kill_ok then
      ({ m with jobs := m.jobs.filter (fun j => j.pid ≠ pid) }, true)
    else
      (m, false)
  else
    (m, false)

/-- `JobManager::suspend_job` as defined in `src/jobs.rs` (one argument): set
the tracked job's status to Suspended; an untracked pid is ignored. -/
def JobManager.suspend_job (m : JobManager) (pid : Nat) : JobManager :=
  { m with jobs :=
      m.jobs.map (fun j => if j.pid = pid then { j with status := .Suspended } else j) }

/-- Modelled from the spec: the three-argument `suspend_job(pid, cmd, args)`
that `handle_tstp` in `src/shell/signals.rs` calls is not among the sources
(`src/jobs.rs` carries a one-argument version with a different signature);
per the spec it marks the corresponding Job Suspended, "inserting it into
the Job Table if it was foreground-only and not yet tracked". The inserted
job receives the next id from the shared counter, per the Job data model's
monotonically-increasing id. -/
def JobManager.suspend_job_tracked (m : JobManager) (pid : Nat)
    (command : String) (args : List String) : JobManager :=
  if m.jobs.any (fun j => j.pid = pid) then
    m.suspend_job pid
  else
    let j : Job := { id := m.job_counter, pid := pid, status := .Suspended,
                     command := command, args := args }
    { jobs := insertJob m.jobs j, job_counter := m.job_counter + 1 }

/-- `JobManager::resume_job`: select by id when given, else
`get_last_suspended`; set the selected job Running and return its pid. -/
def JobManager.resume_job (m : JobManager) (job_id : Option Nat) :
    JobManager × Option Nat :=
  let sel : Option Job :=
    match job_id with
    | some id => m.jobs.find? (fun j => j.id = id)
    | none => m.get_last_suspended
  match sel with
  | none => (m, none)
  | some j =>
    ({ m with jobs :=
        m.jobs.map (fun x => if x.pid = j.pid then { x with status := .Running } else x) },
     some j.pid)

/-- `JobManager::list_jobs` (state effect): probe each job's liveness with a
zero signal. A stored job with Completed status makes the loop return before
the removal pass runs (such a job is never actually stored: `remove_job`
removes the entry in the same call that marks it Completed); otherwise every
job whose process is gone is removed. -/
def JobManager.list_jobs (m : JobManager) (alive : Nat → Bool) : JobManager :=
  if m.jobs.any (fun j => match j.status with | .Completed _ => true | _ => false) then
    m
  else
    { m with jobs := m.jobs.filter (fun j => alive j.pid) }

/-- The job-table operations of one session, with the OS-provided inputs
(child pids, kill outcomes, liveness) as parameters. -/
inductive JobOp where
  | add (pid : Nat) (command : String) (args : List String) : JobOp
  | remove (pid : Nat) (kill_ok : Bool) : JobOp
  | suspend (pid : Nat) : JobOp
  | resume (job_id : Option Nat) : JobOp
  | list (alive : Nat → Bool) : JobOp

/-- Run a sequence of job-table operations from a state, also returning the
trace of job ids allocated by the `add` operations, in order. -/
def runOps : List JobOp → JobManager → JobManager × List Nat
  | [], m => (m, [])
  | op :: rest, m =>
    match op with
    | .add pid c a =>
      let (m', jid) := m.add_job pid c a
      let (mf, tr) := runOps rest m'
      (mf, jid :: tr)
    | .remove pid k => runOps rest (m.remove_job pid k).1
    | .suspend pid => runOps rest (m.suspend_job pid)
    | .resume jid => runOps rest (m.resume_job jid).1
    | .list alive => runOps rest (m.list_jobs alive)

/-! ## Signal coordinator (`src/shell/signals.rs`)

The handler's observable state: the `CURRENT_FOREGROUND_PID` atomic, the
`foreground_info` cell, the job table, which process group owns the terminal
(`tcsetpgrp(0, ·)`), and the trace of `kill(target, sig)` calls issued. The
outcomes of the OS calls (`kill` success, `try_lock` success) are
parameters. `GLOBAL_SIGNAL_HANDLER` is initialized by `SignalHandler::new`
at shell startup, so it is present. -/

def SIGTSTP : Int := 20

structure SignalState where
  current_foreground_pid : Int
  foreground_info : Option (String × List String)
  jobs : JobManager
  term_owner : Int
  sent : List (Int × Int)
  deriving Repr, DecidableEq

/-- `handle_tstp`: nothing when no foreground pid is recorded; otherwise
send SIGTSTP to the negated pid (the process group); when that kill
succeeds, give the terminal back to the shell's process group and, if the
`foreground_info` lock yields a recorded command and the jobs lock is free,
mark that job Suspended; finally reset the foreground pid to `-1`. The
`foreground_info` cell is left as it was. -/
def handle_tstp (shell_pgid : Int) (kill_ok info_lock_ok jobs_lock_ok : Bool)
    (s : SignalState) : SignalState :=
  let pid := s.current_foreground_pid
  if pid ≤ 0 then
    s
  else
    let s1 := { s with sent := s.sent ++ [(-pid, SIGTSTP)] }
    let s2 :=
      if kill_ok then
        let s2a := { s1 with term_owner := shell_pgid }
        if info_lock_ok then
          match s2a.foreground_info with
          | some (cmd, args) =>
            if jobs_lock_ok then
              { s2a with jobs := s2a.jobs.suspend_job_tracked pid.toNat cmd args }
            else s2a
          | none => s2a
        else s2a
      else s1
    { s2 with current_foreground_pid := -1 }

/-! ## Execution orchestrator (`src/shell.rs` and `src/command.rs`)

`TishShell::execute_command` iterates over all parsed statements; each
statement's execution outcome is external to the parsing model and enters as
the oracle `exec` (`Except.error` = the `Err` case; the `Ok` payload is
discarded by the loop). -/

/-- The statement loop of `TishShell::execute_command`: every parsed command
is executed (an `Err` only prints and flips the exit code, then the loop
continues); errors whose text contains `__tish_exit` are ignored. Returns
the commands passed to `exec`, in order, and whether the final exit code is
FAILURE. -/
def runStatements (exec : TishCmd → Except String Unit) :
    List TishCmd → List TishCmd × Bool
  | [] => ([], false)
  | c :: rest =>
    let failHere : Bool :=
      match exec c with
      | .ok _ => false
      | .error e => ¬ containsSub e.data "__tish_exit".data
    let (tr, failRest) := runStatements exec rest
    (c :: tr, failHere || failRest)

/-- `TishShell::execute_command`: parse the line, then run every statement. -/
def execute_command (e : Env) (exec : TishCmd → Except String Unit)
    (line : List Char) : Option (List TishCmd × Bool) :=
  (parse e line).map (runStatements exec)

/-! ## Process spawn paths (`src/command.rs`)

What reaches the OS for a command: the program, the argument list, the
stdio configuration and whether a fresh process group is created. Built
exactly from the fields the spawn functions read. -/

inductive StdioCfg where
  | inherit : StdioCfg
  | null : StdioCfg
  deriving Repr, DecidableEq

structure Invocation where
  program : String
  args : List String
  stdin_cfg : StdioCfg
  stdout_cfg : StdioCfg
  stderr_cfg : StdioCfg
  new_process_group : Bool
  deriving Repr, DecidableEq

/-- `TishCommand::resolve_command`: a single lookup of the program name in
the alias table (`unwrap_or_else` keeps the program name itself), then a
re-parse of the resulting line. No repeated resolution happens here. -/
def resolve_command (e : Env) (aliases : List (String × String))
    (c : TishCmd) : Option (List TishCmd) :=
  let line := (aliases.lookup c.program).getD c.program
  parse e line.data

/-- `TishCommand::spawn_background_job`: spawn `self.program` with
`self.args`; `add_job` nulls stdin/stdout/stderr. No redirection field is
consulted. -/
def spawn_background_invocation (c : TishCmd) : Invocation :=
  { program := c.program, args := c.args,
    stdin_cfg := .null, stdout_cfg := .null, stderr_cfg := .null,
    new_process_group := false }

/-- `TishCommand::spawn_foreground_job`: resolve the alias, take
`command[0]` (a panic — `none` — when the resolved parse is empty), spawn
`command[0].program` with `command[0].args` followed by `self.args`, with
inherited stdio and a fresh process group from the `pre_exec` `setpgid`.
No redirection field is consulted. -/
def spawn_foreground_invocation (e : Env) (aliases : List (String × String))
    (c : TishCmd) : Option Invocation :=
  match resolve_command e aliases c with
  | none => none
  | some [] => none
  | some (c0 :: _) =>
    some { program := c0.program, args := c0.args ++ c.args,
           stdin_cfg := .inherit, stdout_cfg := .inherit, stderr_cfg := .inherit,
           new_process_group := true }

/-- A copy of a command with only the redirection fields replaced. -/
def TishCmd.withRedirects : TishCmd → Option String → Option (String × Bool) → TishCmd
  | .mk p a b _ _ pt, rin, rout => .mk p a b rin rout pt

/-! ## Definitions stated from the spec's words (for comparison only) -/

/-- Stated from the spec's words, for comparison with the parser: the number
of `|` separator characters that are not inside quotes (single or double
quotes toggling one in-quote flag, as the spec's Tokenizer does). -/
def unquotedPipeCount : List Char → Nat → Nat
  | [], _ => 0
  | c :: rest, opn =>
    if c = '"' ∨ c = '\'' then unquotedPipeCount rest (opn ^^^ 1)
    else if c = '|' ∧ opn = 0 then 1 + unquotedPipeCount rest opn
    else unquotedPipeCount rest opn

/-- Did a statement's execution fail, in the sense of the `execute_command`
loop: it returned an `Err` whose text does not contain the `__tish_exit`
sentinel (the sentinel is how the scripting layer signals a clean exit and
is deliberately not a failure). -/
def statement_failed (r : Except String Unit) : Bool :=
  match r with
  | .ok _ => false
  | .error msg => ¬ containsSub msg.data "__tish_exit".data

/-- Test-harness construction for the tokenizer property: a line of quoted
spans separated by single spaces, each span wrapped in its own quote
character (single or double). -/
def quotedLine : List (Char × List Char) → List Char
  | [] => []
  | [(q, s)] => q :: s ++ [q]
  | (q, s) :: rest => q :: s ++ q :: ' ' :: quotedLine rest

/-- The number of `add` operations in a job-table operation sequence. -/
def countAdds : List JobOp → Nat
  | [] => 0
  | .add _ _ _ :: rest => countAdds rest + 1
  | _ :: rest => countAdds rest

/-! ## Lemmas about the embedding -/

theorem scanWord_stop_pos (cs : List Char) :
    ∀ i opn s, (scanWord cs i opn).2 = some s → i < s := by
  induction cs with
  | nil => intro i opn s h; simp [scanWord] at h
  | cons c rest ih =>
    intro i opn s h
    by_cases hq : c = '"' ∨ c = '\''
    · simp only [scanWord, if_pos hq] at h
      have := ih (i + 1) (opn ^^^ 1) s h
      omega
    · by_cases hsp : c = ' ' ∧ opn = 0
      · simp only [scanWord, if_neg hq, if_pos hsp, Option.some.injEq] at h
        omega
      · simp only [scanWord, if_neg hq, if_neg hsp] at h
        rcases hs : scanWord rest (i + 1) opn with ⟨nxt, stopO⟩
        rw [hs] at h
        simp only at h
        have := ih (i + 1) opn s (by rw [hs]; exact h)
        omega

theorem nextAux_rem_lt {cur r : List Char} {tok : Option (List Char)}
    (h : nextAux cur = (tok, some r)) : r.length < cur.length := by
  unfold nextAux at h
  rcases hs : scanWord cur 0 0 with ⟨nxt, stopO⟩
  rw [hs] at h
  cases stopO with
  | none => simp at h
  | some stop =>
    have hpos : 0 < stop := scanWord_stop_pos cur 0 0 stop (by rw [hs])
    by_cases hlen : stop < cur.length
    · simp only [if_pos hlen, Prod.mk.injEq] at h
      by_cases hne : cur.drop stop = []
      · rw [hne] at h
        simp at h
      · have h2 := h.2
        rw [if_pos hne] at h2
        have hr : cur.drop stop = r := by
          exact Option.some.inj h2
        subst hr
        simp only [List.length_drop]
        omega
    · simp only [if_neg hlen, Prod.mk.injEq] at h
      exact absurd h.2 (by simp)

theorem Tokenizer.next_measure_lt (t : Tokenizer) {cur : List Char}
    (h : t.current = some cur) : (t.next).2.measure < t.measure := by
  rcases t with ⟨current, hr⟩
  simp only at h
  subst h
  simp only [Tokenizer.next]
  rcases hn : nextAux cur with ⟨tok, rem⟩
  cases rem with
  | none => simp [Tokenizer.measure, hn]
  | some r =>
    have := nextAux_rem_lt hn
    simp [Tokenizer.measure, hn]
    omega

theorem Tokenizer.next_some_lt {t t' : Tokenizer} {a : List Char}
    (h : t.next = (some a, t')) : t'.measure < t.measure := by
  have hcur : ∃ cur, t.current = some cur := by
    cases hc : t.current with
    | none =>
      exfalso
      rw [Tokenizer.next] at h
      simp [hc] at h
    | some cur => exact ⟨cur, rfl⟩
  obtain ⟨cur, hcur⟩ := hcur
  have := Tokenizer.next_measure_lt t hcur
  rw [h] at this
  exact this

theorem measure_zero_iff {t : Tokenizer} : t.measure = 0 ↔ t.current = none := by
  cases hc : t.current with
  | none => simp [Tokenizer.measure, hc]
  | some cur => simp [Tokenizer.measure, hc]

theorem collectFuel_le {u : Nat} :
    ∀ {v : Nat} {t : Tokenizer}, t.measure ≤ u → t.measure ≤ v →
      collectFuel u t = collectFuel v t := by
  induction u with
  | zero =>
    intro v t h1 _
    have hc : t.current = none := measure_zero_iff.mp (by omega)
    cases v with
    | zero => rfl
    | succ v => simp [collectFuel, Tokenizer.next, hc]
  | succ u ih =>
    intro v t h1 h2
    cases v with
    | zero =>
      have hc : t.current = none := measure_zero_iff.mp (by omega)
      simp [collectFuel, Tokenizer.next, hc]
    | succ v =>
      rcases hn : t.next with ⟨tok, t'⟩
      cases tok with
      | none => simp [collectFuel, hn]
      | some a =>
        have hlt := Tokenizer.next_some_lt hn
        simp only [collectFuel, hn]
        exact congrArg (a :: ·) (ih (by omega) (by omega))

theorem collect_unfold (t : Tokenizer) :
    t.collect = match t.next with
      | (none, _) => []
      | (some a, t') => a :: t'.collect := by
  rcases hn : t.next with ⟨tok, t'⟩
  cases tok with
  | none =>
    rcases hm : t.measure with _ | m
    · simp [Tokenizer.collect, hm, collectFuel]
    · simp [Tokenizer.collect, hm, collectFuel, hn]
  | some a =>
    have hlt := Tokenizer.next_some_lt hn
    rcases hm : t.measure with _ | m
    · omega
    · simp only [Tokenizer.collect, hm, collectFuel, hn]
      exact congrArg (a :: ·) (collectFuel_le (by omega) (le_refl _))

theorem getArgsFuel_le {u : Nat} :
    ∀ {v : Nat} {t : Tokenizer}, t.measure ≤ u → t.measure ≤ v →
      getArgsFuel u t = getArgsFuel v t := by
  induction u with
  | zero =>
    intro v t h1 _
    have hc : t.current = none := measure_zero_iff.mp (by omega)
    cases v with
    | zero => rfl
    | succ v => simp [getArgsFuel, Tokenizer.next, hc]
  | succ u ih =>
    intro v t h1 h2
    cases v with
    | zero =>
      have hc : t.current = none := measure_zero_iff.mp (by omega)
      simp [getArgsFuel, Tokenizer.next, hc]
    | succ v =>
      rcases hn : t.next with ⟨tok, t'⟩
      cases tok with
      | none => simp [getArgsFuel, hn]
      | some a =>
        have hlt := Tokenizer.next_some_lt hn
        have hrec := ih (t := t') (v := v) (by omega) (by omega)
        simp only [getArgsFuel, hn, hrec]

theorem get_args_unfold (t : Tokenizer) :
    t.get_args = match t.next with
      | (none, t') => ([], t')
      | (some a, t') =>
        if a = ['&', '&'] then ([], t')
        else
          let (rest, t'') := t'.get_args
          (a :: rest, t'') := by
  rcases hn : t.next with ⟨tok, t'⟩
  cases tok with
  | none =>
    simp only [hn]
    rcases hm : t.measure with _ | m
    · have hc : t.current = none := measure_zero_iff.mp (by omega)
      have hnt : t.next = (none, t) := by simp [Tokenizer.next, hc]
      rw [hnt] at hn
      have ht : t = t' := congrArg Prod.snd hn
      simp only [Tokenizer.get_args, hm, getArgsFuel]
      rw [ht]
    · simp [Tokenizer.get_args, hm, getArgsFuel, hn]
  | some a =>
    have hlt := Tokenizer.next_some_lt hn
    rcases hm : t.measure with _ | m
    · omega
    · simp only [Tokenizer.get_args, hm, getArgsFuel, hn]
      rw [getArgsFuel_le (t := t') (u := m) (by omega) (le_refl _)]

theorem argsBeforeRedirFuel_le {u : Nat} :
    ∀ {v : Nat} {t : Tokenizer}, t.measure ≤ u → t.measure ≤ v →
      argsBeforeRedirFuel u t = argsBeforeRedirFuel v t := by
  induction u with
  | zero =>
    intro v t h1 _
    have hc : t.current = none := measure_zero_iff.mp (by omega)
    cases v with
    | zero => rfl
    | succ v => simp [argsBeforeRedirFuel, hc]
  | succ u ih =>
    intro v t h1 h2
    cases v with
    | zero =>
      have hc : t.current = none := measure_zero_iff.mp (by omega)
      simp [argsBeforeRedirFuel, hc]
    | succ v =>
      cases hc : t.current with
      | none => simp [argsBeforeRedirFuel, hc]
      | some cur =>
        rcases hn : t.next with ⟨tok, t'⟩
        cases tok with
        | none => simp [argsBeforeRedirFuel, hc, hn]
        | some a =>
          have hlt : t'.measure < t.measure := by
            have := Tokenizer.next_measure_lt t hc
            rw [hn] at this
            exact this
          have hrec := ih (t := t') (v := v) (by omega) (by omega)
          simp only [argsBeforeRedirFuel, hc, hn, hrec]

theorem args_before_redir_go_unfold (t : Tokenizer) :
    argsBeforeRedirFuel t.measure t =
      match t.current with
      | none => some ([], t)
      | some _ =>
        if t.peek = ['>'] ∨ t.peek = ['<'] ∨ t.peek = ['>', '>'] then
          some ([], t)
        else
          match t.next with
          | (none, _) => none
          | (some a, t') =>
            match argsBeforeRedirFuel t'.measure t' with
            | none => none
            | some (rest, t'') => some (a :: rest, t'') := by
  cases hc : t.current with
  | none =>
    have hm : t.measure = 0 := by simp [Tokenizer.measure, hc]
    simp [hm, argsBeforeRedirFuel, hc]
  | some cur =>
    have hm : t.measure = cur.length + 1 := by simp [Tokenizer.measure, hc]
    rw [hm]
    rcases hn : t.next with ⟨tok, t'⟩
    cases tok with
    | none => simp [argsBeforeRedirFuel, hc, hn]
    | some a =>
      have hlt : t'.measure < t.measure := by
        have := Tokenizer.next_measure_lt t hc
        rw [hn] at this
        exact this
      rw [hm] at hlt
      have hrec := argsBeforeRedirFuel_le (t := t') (u := cur.length)
        (v := t'.measure) (by omega) (le_refl _)
      simp only [argsBeforeRedirFuel, hc, hn, hrec]

theorem Tokenizer.next_measure_le (t : Tokenizer) : (t.next).2.measure ≤ t.measure := by
  cases hc : t.current with
  | none =>
    simp [Tokenizer.next, hc]
  | some cur =>
    exact Nat.le_of_lt (Tokenizer.next_measure_lt t hc)

theorem redirLoopFuel_le {u : Nat} :
    ∀ {v : Nat} {t : Tokenizer} {r w}, t.measure ≤ u → t.measure ≤ v →
      redirLoopFuel u t r w = redirLoopFuel v t r w := by
  induction u with
  | zero =>
    intro v t r w h1 _
    have hc : t.current = none := measure_zero_iff.mp (by omega)
    cases v with
    | zero => rfl
    | succ v => simp [redirLoopFuel, hc]
  | succ u ih =>
    intro v t r w h1 h2
    cases v with
    | zero =>
      have hc : t.current = none := measure_zero_iff.mp (by omega)
      simp [redirLoopFuel, hc]
    | succ v =>
      cases hc : t.current with
      | none => simp [redirLoopFuel, hc]
      | some cur =>
        rcases hn : t.next with ⟨tok, t'⟩
        have hlt : t'.measure < t.measure := by
          have := Tokenizer.next_measure_lt t hc
          rw [hn] at this
          exact this
        cases tok with
        | none =>
          have hrec := ih (t := t') (v := v) (r := r) (w := w)
            (by omega) (by omega)
          simp only [redirLoopFuel, hc, hn, hrec]
        | some a =>
          rcases hn2 : t'.next with ⟨tok2, t''⟩
          have hle2 : t''.measure ≤ t'.measure := by
            have := Tokenizer.next_measure_le t'
            rw [hn2] at this
            exact this
          cases tok2 with
          | none =>
            have hr1 := ih (t := t'') (v := v) (r := r) (w := w)
              (by omega) (by omega)
            have hr2 := ih (t := t') (v := v) (r := r) (w := w)
              (by omega) (by omega)
            simp only [redirLoopFuel, hc, hn, hn2, hr1, hr2]
          | some f =>
            have hra := ih (t := t'') (v := v) (r := some (String.mk f)) (w := w)
              (by omega) (by omega)
            have hrb := ih (t := t'') (v := v) (r := r) (w := some (String.mk f, false))
              (by omega) (by omega)
            have hrc := ih (t := t'') (v := v) (r := r) (w := some (String.mk f, true))
              (by omega) (by omega)
            have hrd := ih (t := t') (v := v) (r := r) (w := w)
              (by omega) (by omega)
            simp only [redirLoopFuel, hc, hn, hn2, hra, hrb, hrc, hrd]

/-! ## Claim theorems -/

/-- C2 (counterexample): parsing `"cmd >> out.txt"` does NOT strip the
redirection tokens nor record an append-mode redirection: the resulting
command's args are `[">>", "out.txt"]` and `redirect_out` is `none`,
because `has_redirection` looks only for the substrings `" > "` and `" < "`,
which `" >> "` does not contain. -/
theorem claim_C2_counterexample :
    (parse env0 "cmd >> out.txt".data).map
        (fun l => l.map (fun c => (c.args, c.redirect_out))) =
      some [([">>", "out.txt"], (none : Option (String × Bool)))] := by
  rfl

/-- C2 (amended): for every environment, parsing `"cmd -x a > out.txt"`
yields `program = "cmd"`, `args = ["-x", "a"]` and
`redirect_out = ("out.txt", append := false)`, as claimed; parsing
`"cmd >> out.txt"` yields `program = "cmd"` but keeps `">>"` and
`"out.txt"` in `args` with no `redirect_out`, because `>>` alone does not
set `has_redirection` (append mode is only recorded when a spaced `" > "`
or `" < "` also occurs in the stage). -/
theorem claim_C2 :
    ∀ e : Env,
      parse e "cmd -x a > out.txt".data =
        some [TishCmd.mk "cmd" ["-x", "a"] false none (some ("out.txt", false)) none] ∧
      parse e "cmd >> out.txt".data =
        some [TishCmd.mk "cmd" [">>", "out.txt"] false none none none] :=
  fun _ => ⟨rfl, rfl⟩

/-- C10: execution ignores the parsed redirection fields: two commands that
differ only in `redirect_in`/`redirect_out` produce the same spawned
invocation (program, argument list, stdio configuration, process-group
setup) on both the background path and the foreground path. -/
theorem claim_C10 :
    ∀ (e : Env) (aliases : List (String × String)) (c : TishCmd)
      (rin : Option String) (rout : Option (String × Bool)),
      spawn_background_invocation (c.withRedirects rin rout) =
        spawn_background_invocation c ∧
      spawn_foreground_invocation e aliases (c.withRedirects rin rout) =
        spawn_foreground_invocation e aliases c := by
  intro e aliases c rin rout
  cases c
  exact ⟨rfl, rfl⟩

/-- C9 (counterexample): with the alias table `a → b, b → c`, foreground
resolution of `a` yields the program `b`, although `b` is itself an alias
mapped to `c`; the substitution is a single lookup, not a recursive
resolution. -/
theorem claim_C9_counterexample :
    resolve_command env0 [("a", "b"), ("b", "c")]
        (TishCmd.mk "a" [] false none none none) =
      some [TishCmd.mk "b" [] false none none none] ∧
    List.lookup "b" [("a", "b"), ("b", "c")] = some "c" :=
  ⟨rfl, rfl⟩

/-- C9 (amended): foreground alias resolution substitutes and re-parses the
command line exactly once when the program name matches a user-defined
alias: the result depends only on that alias's right-hand side (never on
further alias entries), and on a self-referential alias (`ls → ls`)
resolution terminates with `ls` as a terminal case. -/
theorem claim_C9 :
    (∀ (e : Env) (al1 al2 : List (String × String)) (c : TishCmd),
        al1.lookup c.program = al2.lookup c.program →
        resolve_command e al1 c = resolve_command e al2 c) ∧
    (∀ e : Env,
        resolve_command e [("ls", "ls")] (TishCmd.mk "ls" [] false none none none) =
          some [TishCmd.mk "ls" [] false none none none]) := by
  constructor
  · intro e al1 al2 c h
    simp only [resolve_command, h]
  · intro e
    rfl

/-- C9 (witness): the single-lookup property applied at a concrete alias
table: changing what `b` maps to does not change the resolution of `a`. -/
theorem claim_C9_witness :
    resolve_command env0 [("a", "b"), ("b", "c")]
        (TishCmd.mk "a" [] false none none none) =
      resolve_command env0 [("a", "b"), ("b", "x")]
        (TishCmd.mk "a" [] false none none none) :=
  claim_C9.1 env0 [("a", "b"), ("b", "c")] [("a", "b"), ("b", "x")]
    (TishCmd.mk "a" [] false none none none) rfl

/-- C8: every `&&`-separated statement of a line is executed regardless of
earlier failures (the loop's trace is the whole parsed list, with no
short-circuit), and the line's exit code is FAILURE exactly when some
statement's execution returned a real error (an `Err` other than the
`__tish_exit` sentinel). -/
theorem claim_C8 :
    ∀ (e : Env) (exec : TishCmd → Except String Unit) (line : List Char)
      (cmds : List TishCmd),
      parse e line = some cmds →
      execute_command e exec line =
        some (cmds, cmds.any (fun c => statement_failed (exec c))) := by
  intro e exec line cmds h
  have hrun : ∀ l : List TishCmd,
      runStatements exec l = (l, l.any (fun c => statement_failed (exec c))) := by
    intro l
    induction l with
    | nil => rfl
    | cons c rest ih => simp [runStatements, ih, statement_failed, List.any_cons]
  simp [execute_command, h, hrun]

/-- C8 (witness): `"false && echo unreachable"` with an execution oracle
that fails the first statement: the second statement is still executed (it
appears in the trace) and the overall exit code is FAILURE. -/
theorem claim_C8_witness :
    execute_command env0
      (fun c => if c.program = "false" then Except.error "spawn failed" else Except.ok ())
      "false && echo unreachable".data =
      some ([TishCmd.mk "false" [] false none none none,
             TishCmd.mk "echo" ["unreachable"] false none none none], true) := by
  have h := claim_C8 env0
    (fun c => if c.program = "false" then Except.error "spawn failed" else Except.ok ())
    "false && echo unreachable".data
    [TishCmd.mk "false" [] false none none none,
     TishCmd.mk "echo" ["unreachable"] false none none none]
    (by rfl)
  exact h.trans (by rfl)

/-- C5 (counterexample): after a handled terminal stop with a recorded
foreground pid, a recorded `(program, args)`, and all OS calls succeeding,
the stored `foreground_info` is NOT cleared: only the foreground pid is
reset, contradicting the claim that both parts of the foreground state are
cleared. -/
theorem claim_C5_counterexample :
    (handle_tstp 100 true true true
        { current_foreground_pid := 5, foreground_info := some ("sleep", ["5"]),
          jobs := JobManager.new, term_owner := 100, sent := [] }).foreground_info =
      some ("sleep", ["5"]) := by
  rfl

/-- C5 (amended): when no foreground pid is recorded the handler does
nothing; otherwise (with the stop forwarded successfully and both locks
available) it sends the stop signal to the negated pid (the process group),
reclaims the terminal for the shell's process group, marks the job
Suspended — inserting it into the Job Table when the foreground job was not
yet tracked — and clears the foreground pid; the stored `(program, args)`
info is left unchanged (not cleared). The 3-argument suspend called here is
modelled from the spec, see `JobManager.suspend_job_tracked`. -/
theorem claim_C5 :
    (∀ (pg : Int) (k i j : Bool) (s : SignalState),
        s.current_foreground_pid ≤ 0 → handle_tstp pg k i j s = s) ∧
    (∀ (pg : Int) (s : SignalState) (cmd : String) (args : List String),
        0 < s.current_foreground_pid →
        s.foreground_info = some (cmd, args) →
        (handle_tstp pg true true true s).sent =
            s.sent ++ [(-s.current_foreground_pid, SIGTSTP)] ∧
        (handle_tstp pg true true true s).term_owner = pg ∧
        (handle_tstp pg true true true s).jobs =
            s.jobs.suspend_job_tracked s.current_foreground_pid.toNat cmd args ∧
        (s.jobs.contains_pid s.current_foreground_pid.toNat = false →
          (handle_tstp pg true true true s).jobs.jobs =
            s.jobs.jobs ++ [{ id := s.jobs.job_counter,
                              pid := s.current_foreground_pid.toNat,
                              status := .Suspended, command := cmd, args := args }]) ∧
        (handle_tstp pg true true true s).current_foreground_pid = -1 ∧
        (handle_tstp pg true true true s).foreground_info = s.foreground_info) := by
  constructor
  · intro pg k i j s h
    simp [handle_tstp, h]
  · intro pg s cmd args hpos hinfo
    have hle : ¬ s.current_foreground_pid ≤ 0 := by omega
    refine ⟨?_, ?_, ?_, ?_, ?_, ?_⟩
    · simp [handle_tstp, hle, hinfo]
    · simp [handle_tstp, hle, hinfo]
    · simp [handle_tstp, hle, hinfo]
    · intro hnot
      simp only [JobManager.contains_pid] at hnot
      simp [handle_tstp, hle, hinfo, JobManager.suspend_job_tracked, insertJob, hnot]
    · simp [handle_tstp, hle, hinfo]
    · simp [handle_tstp, hle, hinfo]

/-- C5 (witness): the amended behavior at a concrete state: foreground pid 5
running `sleep 5`, untracked, shell process group 100. -/
theorem claim_C5_witness :
    (handle_tstp 100 true true true
        { current_foreground_pid := 5, foreground_info := some ("sleep", ["5"]),
          jobs := JobManager.new, term_owner := 100, sent := [] }).jobs =
      (JobManager.new).suspend_job_tracked (Int.toNat 5) "sleep" ["5"] ∧
    (handle_tstp 100 true true true
        { current_foreground_pid := 5, foreground_info := some ("sleep", ["5"]),
          jobs := JobManager.new, term_owner := 100, sent := [] }).current_foreground_pid = -1 := by
  have h := claim_C5.2 100
    { current_foreground_pid := 5, foreground_info := some ("sleep", ["5"]),
      jobs := JobManager.new, term_owner := 100, sent := [] }
    "sleep" ["5"] (by decide) rfl
  exact ⟨h.2.2.1, h.2.2.2.2.1⟩

/-! ### Lemmas about `get_last_suspended` (a `max_by_key` fold) -/

theorem maxFold_none :
    ∀ (l : List Job) (acc : Option Job),
      l.foldl (fun acc j => match acc with
        | none => some j
        | some a => if a.id ≤ j.id then some j else some a) acc = none →
      acc = none ∧ l = [] := by
  intro l
  induction l with
  | nil => intro acc h; exact ⟨h, rfl⟩
  | cons x rest ih =>
    intro acc h
    simp only [List.foldl_cons] at h
    rcases ih _ h with ⟨hstep, -⟩
    cases acc with
    | none => simp at hstep
    | some a =>
      exfalso
      by_cases hle : a.id ≤ x.id <;> simp [hle] at hstep

theorem maxFold_mem :
    ∀ (l : List Job) (acc : Option Job) (j : Job),
      l.foldl (fun acc j => match acc with
        | none => some j
        | some a => if a.id ≤ j.id then some j else some a) acc = some j →
      acc = some j ∨ j ∈ l := by
  intro l
  induction l with
  | nil => intro acc j h; exact Or.inl h
  | cons x rest ih =>
    intro acc j h
    simp only [List.foldl_cons] at h
    rcases ih _ _ h with hstep | hmem
    · cases acc with
      | none =>
        simp only [Option.some.injEq] at hstep
        exact Or.inr (by simp [hstep.symm])
      | some a =>
        by_cases hle : a.id ≤ x.id
        · simp only [hle, if_true] at hstep
          simp only [Option.some.injEq] at hstep
          exact Or.inr (by simp [hstep.symm])
        · simp only [hle, if_false] at hstep
          exact Or.inl hstep
    · exact Or.inr (List.mem_cons_of_mem _ hmem)

theorem maxFold_ge :
    ∀ (l : List Job) (acc : Option Job) (j : Job),
      l.foldl (fun acc j => match acc with
        | none => some j
        | some a => if a.id ≤ j.id then some j else some a) acc = some j →
      (∀ a, acc = some a → a.id ≤ j.id) ∧ (∀ x ∈ l, x.id ≤ j.id) := by
  intro l
  induction l with
  | nil =>
    intro acc j h
    refine ⟨fun a ha => ?_, by simp⟩
    rw [ha] at h
    simp only [List.foldl_nil, Option.some.injEq] at h
    rw [h]
  | cons x rest ih =>
    intro acc j h
    simp only [List.foldl_cons] at h
    rcases ih _ _ h with ⟨hacc, hrest⟩
    have hx : x.id ≤ j.id := by
      cases acc with
      | none => exact hacc x rfl
      | some a =>
        by_cases hle : a.id ≤ x.id
        · exact hacc x (by simp [hle])
        · have := hacc a (by simp [hle])
          omega
    refine ⟨fun a ha => ?_, ?_⟩
    · subst ha
      by_cases hle : a.id ≤ x.id
      · exact le_trans hle hx
      · exact hacc a (by simp [hle])
    · intro y hy
      rcases List.mem_cons.mp hy with hyx | hyr
      · rw [hyx]; exact hx
      · exact hrest y hyr

theorem get_last_suspended_none {m : JobManager}
    (h : m.get_last_suspended = none) :
    ∀ j ∈ m.jobs, j.status ≠ JobStatus.Suspended := by
  intro j hj hs
  rcases maxFold_none _ _ h with ⟨-, hfil⟩
  have : j ∈ m.jobs.filter (fun j => j.status = JobStatus.Suspended) :=
    List.mem_filter.mpr ⟨hj, by simp [hs]⟩
  rw [hfil] at this
  exact absurd this (List.not_mem_nil j)

theorem get_last_suspended_some {m : JobManager} {j : Job}
    (h : m.get_last_suspended = some j) :
    j ∈ m.jobs ∧ j.status = JobStatus.Suspended ∧
      ∀ j' ∈ m.jobs, j'.status = JobStatus.Suspended → j'.id ≤ j.id := by
  have hmem : j ∈ m.jobs.filter (fun j => j.status = JobStatus.Suspended) := by
    rcases maxFold_mem _ _ _ h with hacc | hmem
    · exact absurd hacc (by simp)
    · exact hmem
  have hj := List.mem_filter.mp hmem
  refine ⟨hj.1, by simpa using hj.2, ?_⟩
  intro j' hj' hs'
  exact (maxFold_ge _ _ _ h).2 j'
    (List.mem_filter.mpr ⟨hj', by simp [hs']⟩)

/-- C6: `resume_job(None)` selects the Suspended job with the maximal id
(returning `None` and leaving the table unchanged when no job is
Suspended); `resume_job(Some(id))` selects the job with that id regardless
of status or suspension recency; a selected job's status becomes Running
(the rest of the table and the id counter are untouched) and its pid is
returned; when nothing matches, `None` is returned and the table is
unchanged. -/
theorem claim_C6 :
    ∀ (m : JobManager) (jid : Option Nat),
      ((m.resume_job jid).2 = none →
        (m.resume_job jid).1 = m ∧
        (jid = none → ∀ j ∈ m.jobs, j.status ≠ JobStatus.Suspended) ∧
        (∀ i, jid = some i → ∀ j ∈ m.jobs, j.id ≠ i)) ∧
      (∀ pid, (m.resume_job jid).2 = some pid →
        ∃ j, j ∈ m.jobs ∧ j.pid = pid ∧
          (∀ i, jid = some i → j.id = i) ∧
          (jid = none → j.status = JobStatus.Suspended ∧
            ∀ j' ∈ m.jobs, j'.status = JobStatus.Suspended → j'.id ≤ j.id) ∧
          (m.resume_job jid).1.jobs =
            m.jobs.map (fun x => if x.pid = pid then { x with status := JobStatus.Running } else x) ∧
          (m.resume_job jid).1.job_counter = m.job_counter) := by
  intro m jid
  cases jid with
  | none =>
    cases hg : m.get_last_suspended with
    | none =>
      refine ⟨fun _ => ⟨?_, ?_, ?_⟩, fun pid hp => ?_⟩
      · simp [JobManager.resume_job, hg]
      · intro _
        exact get_last_suspended_none hg
      · intro i hi
        exact absurd hi (by simp)
      · simp [JobManager.resume_job, hg] at hp
    | some j =>
      refine ⟨fun hn => ?_, fun pid hp => ?_⟩
      · simp [JobManager.resume_job, hg] at hn
      · have hpid : j.pid = pid := by
          simpa [JobManager.resume_job, hg] using hp
        rcases get_last_suspended_some hg with ⟨hmem, hsusp, hmax⟩
        refine ⟨j, hmem, hpid, ?_, fun _ => ⟨hsusp, hmax⟩, ?_, ?_⟩
        · intro i hi
          exact absurd hi (by simp)
        · simp [JobManager.resume_job, hg, hpid]
        · simp [JobManager.resume_job, hg]
  | some i =>
    cases hf : m.jobs.find? (fun j => j.id = i) with
    | none =>
      refine ⟨fun _ => ⟨?_, ?_, ?_⟩, fun pid hp => ?_⟩
      · simp [JobManager.resume_job, hf]
      · intro h
        exact absurd h (by simp)
      · intro i' hi' j hj
        have := List.find?_eq_none.mp hf j hj
        simp only [Option.some.injEq] at hi'
        subst hi'
        simpa using this
      · simp [JobManager.resume_job, hf] at hp
    | some j =>
      refine ⟨fun hn => ?_, fun pid hp => ?_⟩
      · simp [JobManager.resume_job, hf] at hn
      · have hpid : j.pid = pid := by
          simpa [JobManager.resume_job, hf] using hp
        have hmem := List.mem_of_find?_eq_some hf
        have hid : j.id = i := by
          have := List.find?_some hf
          simpa using this
        refine ⟨j, hmem, hpid, ?_, ?_, ?_, ?_⟩
        · intro i' hi'
          simp only [Option.some.injEq] at hi'
          rw [hid, hi']
        · intro h
          exact absurd h (by simp)
        · simp [JobManager.resume_job, hf, hpid]
        · simp [JobManager.resume_job, hf]

/-- C6 (witness): a table with a suspended `sleep` job (id 1, pid 101) and
a running `cat` job (id 2, pid 102): bare `fg` selects the suspended job
and sets it Running, leaving the rest and the counter untouched. -/
theorem claim_C6_witness :
    (JobManager.resume_job
        { jobs := [{ id := 1, pid := 101, status := JobStatus.Suspended,
                     command := "sleep", args := ["5"] },
                   { id := 2, pid := 102, status := JobStatus.Running,
                     command := "cat", args := [] }], job_counter := 3 } none).1.jobs =
      [{ id := 1, pid := 101, status := JobStatus.Suspended,
         command := "sleep", args := ["5"] },
       { id := 2, pid := 102, status := JobStatus.Running,
         command := "cat", args := [] }].map
        (fun x => if x.pid = 101 then { x with status := JobStatus.Running } else x) ∧
    (JobManager.resume_job
        { jobs := [{ id := 1, pid := 101, status := JobStatus.Suspended,
                     command := "sleep", args := ["5"] },
                   { id := 2, pid := 102, status := JobStatus.Running,
                     command := "cat", args := [] }], job_counter := 3 } none).1.job_counter = 3 := by
  obtain ⟨j, hmem, hpid, hid, hnone, hmap, hcounter⟩ :=
    (claim_C6
      { jobs := [{ id := 1, pid := 101, status := JobStatus.Suspended,
                   command := "sleep", args := ["5"] },
                 { id := 2, pid := 102, status := JobStatus.Running,
                   command := "cat", args := [] }], job_counter := 3 } none).2 101 (by rfl)
  exact ⟨hmap, hcounter⟩

/-! ### Job-table invariant lemmas (for C7) -/

theorem insertJob_pids {l : List Job} {j : Job}
    (h : (l.map Job.pid).Nodup) : ((insertJob l j).map Job.pid).Nodup := by
  unfold insertJob
  by_cases hany : l.any (fun x => x.pid = j.pid)
  · rw [if_pos hany]
    have heq : (l.map (fun x => if x.pid = j.pid then j else x)).map Job.pid = l.map Job.pid := by
      simp only [List.map_map]
      apply List.map_congr_left
      intro x _
      by_cases hx : x.pid = j.pid
      · simp [Function.comp, hx]
      · simp [Function.comp, hx]
    rw [heq]
    exact h
  · rw [if_neg hany]
    have hnot : j.pid ∉ l.map Job.pid := by
      intro hmem
      rcases List.mem_map.mp hmem with ⟨x, hx, hpx⟩
      exact hany (List.any_eq_true.mpr ⟨x, hx, by simp [hpx]⟩)
    rw [List.map_append]
    refine List.nodup_append.mpr ⟨h, List.nodup_singleton _, ?_⟩
    intro p hp hq
    simp only [List.map_cons, List.map_nil, List.mem_singleton] at hq
    exact hnot (hq ▸ hp)

theorem replaceMap_ids :
    ∀ (l : List Job) (j : Job) (c : Nat),
      (l.map Job.pid).Nodup → (l.map Job.id).Nodup →
      (∀ x ∈ l, x.id < c) → j.id = c →
      ((l.map (fun x => if x.pid = j.pid then j else x)).map Job.id).Nodup := by
  intro l j c hp hi hb hj
  induction l with
  | nil => simp
  | cons x rest ih =>
    rw [List.map_cons, List.nodup_cons] at hp hi
    obtain ⟨hpx, hpr⟩ := hp
    obtain ⟨hix, hir⟩ := hi
    rw [List.map_cons]
    by_cases hx : x.pid = j.pid
    · rw [if_pos hx]
      have hrest : rest.map (fun y => if y.pid = j.pid then j else y) = rest := by
        have hid : rest.map (fun y => if y.pid = j.pid then j else y) = rest.map id := by
          apply List.map_congr_left
          intro y hy
          have hyne : ¬ y.pid = j.pid := by
            intro he
            have hyx : y.pid = x.pid := by rw [he, hx]
            exact hpx (hyx ▸ List.mem_map_of_mem Job.pid hy)
          rw [if_neg hyne]
          rfl
        rw [hid, List.map_id]
      rw [hrest, List.map_cons, List.nodup_cons]
      constructor
      · intro hmem
        rcases List.mem_map.mp hmem with ⟨y, hy, hyid⟩
        have hylt := hb y (List.mem_cons_of_mem _ hy)
        rw [hyid, hj] at hylt
        exact absurd hylt (lt_irrefl _)
      · exact hir
    · rw [if_neg hx, List.map_cons, List.nodup_cons]
      constructor
      · intro hmem
        rcases List.mem_map.mp hmem with ⟨y, hy0, hyid⟩
        rcases List.mem_map.mp hy0 with ⟨z, hz, hzy⟩
        by_cases hzp : z.pid = j.pid
        · rw [if_pos hzp] at hzy
          have hxlt := hb x (List.mem_cons_self _ _)
          rw [← hzy, hj] at hyid
          omega
        · rw [if_neg hzp] at hzy
          rw [← hzy] at hyid
          exact hix (hyid ▸ List.mem_map_of_mem Job.id hz)
      · exact ih hpr hir (fun y hy => hb y (List.mem_cons_of_mem _ hy))

theorem insertJob_ids {l : List Job} {j : Job} {c : Nat}
    (hp : (l.map Job.pid).Nodup) (hi : (l.map Job.id).Nodup)
    (hb : ∀ x ∈ l, x.id < c) (hj : j.id = c) :
    ((insertJob l j).map Job.id).Nodup := by
  unfold insertJob
  by_cases hany : l.any (fun x => x.pid = j.pid)
  · rw [if_pos hany]
    exact replaceMap_ids l j c hp hi hb hj
  · rw [if_neg hany]
    have hnot : c ∉ l.map Job.id := by
      intro hmem
      rcases List.mem_map.mp hmem with ⟨x, hx, hxid⟩
      have := hb x hx
      omega
    rw [List.map_append]
    refine List.nodup_append.mpr ⟨hi, List.nodup_singleton _, ?_⟩
    intro i hil hiq
    simp only [List.map_cons, List.map_nil, List.mem_singleton] at hiq
    rw [hiq, hj] at hil
    exact hnot hil

theorem insertJob_bound {l : List Job} {j : Job} {c : Nat}
    (hb : ∀ x ∈ l, x.id < c) (hj : j.id < c) :
    ∀ x ∈ insertJob l j, x.id < c := by
  intro x hx
  unfold insertJob at hx
  by_cases hany : l.any (fun y => y.pid = j.pid)
  · rw [if_pos hany] at hx
    rcases List.mem_map.mp hx with ⟨y, hy, hyx⟩
    by_cases hyp : y.pid = j.pid
    · rw [if_pos hyp] at hyx
      rw [← hyx]
      exact hj
    · rw [if_neg hyp] at hyx
      rw [← hyx]
      exact hb y hy
  · rw [if_neg hany] at hx
    rcases List.mem_append.mp hx with hx | hx
    · exact hb x hx
    · simp only [List.mem_singleton] at hx
      rw [hx]
      exact hj

theorem map_pids_ids_of_preserve {l : List Job} {f : Job → Job}
    (hp : ∀ x, (f x).pid = x.pid) (hi : ∀ x, (f x).id = x.id) :
    (l.map f).map Job.pid = l.map Job.pid ∧ (l.map f).map Job.id = l.map Job.id := by
  constructor <;>
    · simp only [List.map_map]
      exact List.map_congr_left (fun x _ => by simp [Function.comp, hp, hi])

theorem filter_pids_ids_nodup {l : List Job} {p : Job → Bool}
    (hp : (l.map Job.pid).Nodup) (hi : (l.map Job.id).Nodup) :
    ((l.filter p).map Job.pid).Nodup ∧ ((l.filter p).map Job.id).Nodup :=
  ⟨hp.sublist ((l.filter_sublist).map Job.pid),
   hi.sublist ((l.filter_sublist).map Job.id)⟩

/-- The invariant used for C7: duplicate-free pids, duplicate-free ids, and
every stored id below the counter. -/
def JobManager.wf (m : JobManager) : Prop :=
  (m.jobs.map Job.pid).Nodup ∧ (m.jobs.map Job.id).Nodup ∧
    ∀ x ∈ m.jobs, x.id < m.job_counter

theorem statusMap_wf {m : JobManager} {g : Job → JobStatus} {q : Job → Prop}
    [DecidablePred q] (hwf : m.wf) :
    ({ m with jobs :=
        m.jobs.map (fun x => if q x then { x with status := g x } else x) } : JobManager).wf := by
  obtain ⟨hp, hi, hb⟩ := hwf
  have hps := map_pids_ids_of_preserve
    (l := m.jobs) (f := fun x => if q x then { x with status := g x } else x)
    (fun x => by by_cases hx : q x <;> simp [hx])
    (fun x => by by_cases hx : q x <;> simp [hx])
  refine ⟨by rw [hps.1]; exact hp, by rw [hps.2]; exact hi, ?_⟩
  intro x hx
  rcases List.mem_map.mp hx with ⟨y, hy, hyx⟩
  have hylt := hb y hy
  by_cases hq : q y
  · rw [if_pos hq] at hyx
    rw [← hyx]
    exact hylt
  · rw [if_neg hq] at hyx
    rw [← hyx]
    exact hylt

theorem add_job_wf {m : JobManager} {pid : Nat} {c : String} {a : List String}
    (hwf : m.wf) : (m.add_job pid c a).1.wf := by
  obtain ⟨hp, hi, hb⟩ := hwf
  refine ⟨insertJob_pids hp, insertJob_ids hp hi hb rfl, ?_⟩
  exact insertJob_bound (fun x hx => Nat.lt_succ_of_lt (hb x hx)) (Nat.lt_succ_self _)

theorem remove_job_wf {m : JobManager} {pid : Nat} {k : Bool}
    (hwf : m.wf) :
    (m.remove_job pid k).1.wf ∧ (m.remove_job pid k).1.job_counter = m.job_counter := by
  obtain ⟨hp, hi, hb⟩ := hwf
  unfold JobManager.remove_job
  by_cases h1 : m.jobs.any (fun j => j.pid = pid)
  · by_cases h2 : k
    · rw [if_pos h1, if_pos h2]
      rcases filter_pids_ids_nodup (p := fun j => decide (j.pid ≠ pid)) hp hi with ⟨hp2, hi2⟩
      exact ⟨⟨hp2, hi2, fun x hx => hb x (List.mem_of_mem_filter hx)⟩, rfl⟩
    · rw [if_pos h1, if_neg h2]
      exact ⟨⟨hp, hi, hb⟩, rfl⟩
  · rw [if_neg h1]
    exact ⟨⟨hp, hi, hb⟩, rfl⟩

theorem suspend_job_wf {m : JobManager} {pid : Nat}
    (hwf : m.wf) :
    (m.suspend_job pid).wf ∧ (m.suspend_job pid).job_counter = m.job_counter :=
  ⟨statusMap_wf (g := fun _ => JobStatus.Suspended) (q := fun j => j.pid = pid) hwf, rfl⟩

theorem resume_job_wf {m : JobManager} {jid : Option Nat}
    (hwf : m.wf) :
    (m.resume_job jid).1.wf ∧ (m.resume_job jid).1.job_counter = m.job_counter := by
  cases jid with
  | none =>
    cases hg : m.get_last_suspended with
    | none =>
      have h1 : m.resume_job none = (m, none) := by
        simp [JobManager.resume_job, hg]
      rw [h1]
      exact ⟨hwf, rfl⟩
    | some j =>
      have h1 : m.resume_job none =
          ({ m with jobs :=
              m.jobs.map (fun x =>
                if x.pid = j.pid then { x with status := JobStatus.Running } else x) },
           some j.pid) := by
        simp [JobManager.resume_job, hg]
      rw [h1]
      exact ⟨statusMap_wf (g := fun _ => JobStatus.Running)
        (q := fun x => x.pid = j.pid) hwf, rfl⟩
  | some i =>
    cases hf : m.jobs.find? (fun j => j.id = i) with
    | none =>
      have h1 : m.resume_job (some i) = (m, none) := by
        simp [JobManager.resume_job, hf]
      rw [h1]
      exact ⟨hwf, rfl⟩
    | some j =>
      have h1 : m.resume_job (some i) =
          ({ m with jobs :=
              m.jobs.map (fun x =>
                if x.pid = j.pid then { x with status := JobStatus.Running } else x) },
           some j.pid) := by
        simp [JobManager.resume_job, hf]
      rw [h1]
      exact ⟨statusMap_wf (g := fun _ => JobStatus.Running)
        (q := fun x => x.pid = j.pid) hwf, rfl⟩

theorem list_jobs_wf {m : JobManager} {alive : Nat → Bool}
    (hwf : m.wf) :
    (m.list_jobs alive).wf ∧ (m.list_jobs alive).job_counter = m.job_counter := by
  obtain ⟨hp, hi, hb⟩ := hwf
  unfold JobManager.list_jobs
  by_cases h1 : m.jobs.any (fun j => match j.status with
      | JobStatus.Completed _ => true | _ => false)
  · rw [if_pos h1]
    exact ⟨⟨hp, hi, hb⟩, rfl⟩
  · rw [if_neg h1]
    rcases filter_pids_ids_nodup (p := fun j => alive j.pid) hp hi with ⟨hp2, hi2⟩
    exact ⟨⟨hp2, hi2, fun x hx => hb x (List.mem_of_mem_filter hx)⟩, rfl⟩

theorem runOps_spec :
    ∀ (ops : List JobOp) (m : JobManager), m.wf →
      (runOps ops m).2 = List.range' m.job_counter (countAdds ops) ∧
      (runOps ops m).1.wf := by
  intro ops
  induction ops with
  | nil =>
    intro m hwf
    exact ⟨rfl, hwf⟩
  | cons op rest ih =>
    intro m hwf
    cases op with
    | add pid c a =>
      have hwf2 : (m.add_job pid c a).1.wf := add_job_wf hwf
      rcases ih _ hwf2 with ⟨htr, hfin⟩
      have hcons : runOps (JobOp.add pid c a :: rest) m =
          ((runOps rest (m.add_job pid c a).1).1,
           (m.add_job pid c a).2 :: (runOps rest (m.add_job pid c a).1).2) := rfl
      have hc1 : (m.add_job pid c a).1.job_counter = m.job_counter + 1 := rfl
      have hc2 : (m.add_job pid c a).2 = m.job_counter := rfl
      refine ⟨?_, ?_⟩
      · rw [hcons]
        simp only [htr, hc1, hc2, countAdds]
        rw [List.range'_succ]
      · rw [hcons]
        exact hfin
    | remove pid k =>
      have h5 : (m.remove_job pid k).1.wf ∧
          (m.remove_job pid k).1.job_counter = m.job_counter := remove_job_wf hwf
      rcases h5 with ⟨hwf2, hc⟩
      rcases ih _ hwf2 with ⟨htr, hfin⟩
      exact ⟨by simp only [runOps, countAdds, htr, hc], by simpa only [runOps] using hfin⟩
    | suspend pid =>
      have h5 : (m.suspend_job pid).wf ∧
          (m.suspend_job pid).job_counter = m.job_counter := suspend_job_wf hwf
      rcases h5 with ⟨hwf2, hc⟩
      rcases ih _ hwf2 with ⟨htr, hfin⟩
      exact ⟨by simp only [runOps, countAdds, htr, hc], by simpa only [runOps] using hfin⟩
    | resume jid =>
      have h5 : (m.resume_job jid).1.wf ∧
          (m.resume_job jid).1.job_counter = m.job_counter := resume_job_wf hwf
      rcases h5 with ⟨hwf2, hc⟩
      rcases ih _ hwf2 with ⟨htr, hfin⟩
      exact ⟨by simp only [runOps, countAdds, htr, hc], by simpa only [runOps] using hfin⟩
    | list alive =>
      have h5 : (m.list_jobs alive).wf ∧
          (m.list_jobs alive).job_counter = m.job_counter := list_jobs_wf hwf
      rcases h5 with ⟨hwf2, hc⟩
      rcases ih _ hwf2 with ⟨htr, hfin⟩
      exact ⟨by simp only [runOps, countAdds, htr, hc], by simpa only [runOps] using hfin⟩

/-- C7: from a fresh Job Table, any sequence of job-table operations
allocates ids strictly increasingly starting at 1 and never reuses them:
the ids handed to the N `add` operations are exactly `1, 2, ..., N` in add
order, whatever removals, suspensions, resumptions or listings happen in
between; and after the sequence the table holds at most one Job per pid
(and at most one per id). -/
theorem claim_C7 :
    ∀ ops : List JobOp,
      (runOps ops JobManager.new).2 = List.range' 1 (countAdds ops) ∧
      ((runOps ops JobManager.new).1.jobs.map Job.pid).Nodup ∧
      ((runOps ops JobManager.new).1.jobs.map Job.id).Nodup := by
  intro ops
  have h := runOps_spec ops JobManager.new
    ⟨by simp [JobManager.new], by simp [JobManager.new], by simp [JobManager.new]⟩
  exact ⟨h.1, h.2.1, h.2.2.1⟩

/-! ### Chain-shape lemmas (for C1 and C3) -/

theorem parse_single_form (t : Tokenizer) :
    parse_single_command t = none ∨
      ∃ p a b ri ro, parse_single_command t = some (TishCmd.mk p a b ri ro none) := by
  unfold parse_single_command
  cases hst : stage_tokens t with
  | none => exact Or.inl rfl
  | some pr =>
    obtain ⟨tokens, t2⟩ := pr
    by_cases he : tokens = []
    · right
      exact ⟨"", [], false, none, none, by simp [he]⟩
    · right
      refine ⟨String.mk tokens.headI,
        ((if decide ((tokens.drop 1).getLast? = some ['&']) then (tokens.drop 1).dropLast
          else tokens.drop 1).map String.mk),
        decide ((tokens.drop 1).getLast? = some ['&']),
        (redirLoop t2 none none).1, (redirLoop t2 none none).2, ?_⟩
      simp only [he, if_neg, ite_false]

theorem parse_single_pipe_none {t : Tokenizer} {c : TishCmd}
    (h : parse_single_command t = some c) : c.pipe_to = none := by
  rcases parse_single_form t with hn | ⟨p, a, b, ri, ro, hs⟩
  · rw [hn] at h
    exact absurd h (by simp)
  · rw [hs] at h
    have := Option.some.inj h
    rw [← this]
    rfl

theorem lastStage_of_pipe_none {c : TishCmd} (h : c.pipe_to = none) :
    c.lastStage = c := by
  cases c with
  | mk p a b ri ro pt =>
    cases pt with
    | none => rfl
    | some t => exact absurd h (by simp [TishCmd.pipe_to])

theorem set_pipe_none_self {c : TishCmd} (h : c.pipe_to = none) :
    set_pipe c none = c := by
  cases c with
  | mk p a b ri ro pt =>
    cases pt with
    | none => rfl
    | some t => exact absurd h (by simp [TishCmd.pipe_to])

theorem lastStage_set_pipe_some (c tc : TishCmd) :
    (set_pipe c (some tc)).lastStage = tc.lastStage := by
  cases c
  rfl

theorem chainLength_set_pipe (c : TishCmd) (tail : Option TishCmd) :
    (set_pipe c tail).chainLength =
      match tail with
      | none => 1
      | some tc => tc.chainLength + 1 := by
  cases c
  cases tail <;> rfl

theorem chainOf_cons_some {p : List Char} {rest : List (List Char)}
    {x : Option TishCmd} (h : chainOf (p :: rest) = some x) :
    ∃ tail c, chainOf rest = some tail ∧
      parse_single_command (Tokenizer.new p) = some c ∧
      x = some (set_pipe c tail) := by
  unfold chainOf at h
  cases ht : chainOf rest with
  | none =>
    rw [ht] at h
    exact absurd h (by simp [Option.bind])
  | some tail =>
    rw [ht] at h
    cases hp : parse_single_command (Tokenizer.new p) with
    | none =>
      rw [hp] at h
      exact absurd h (by simp [Option.bind])
    | some c =>
      rw [hp] at h
      refine ⟨tail, c, rfl, rfl, ?_⟩
      simpa [Option.bind] using h.symm

theorem chainOf_length :
    ∀ (parts : List (List Char)) (x : Option TishCmd), chainOf parts = some x →
      (match x with | none => 0 | some c => c.chainLength) = parts.length := by
  intro parts
  induction parts with
  | nil =>
    intro x h
    have : x = none := by simpa [chainOf] using h.symm
    rw [this]
    rfl
  | cons p rest ih =>
    intro x h
    rcases chainOf_cons_some h with ⟨tail, c, htail, hp, hx⟩
    rw [hx]
    have := ih tail htail
    simp only [chainLength_set_pipe]
    cases tail with
    | none =>
      simp only at this
      simp [← this]
    | some tc =>
      simp only at this
      simp [← this]

theorem chainOf_lastStage :
    ∀ (parts : List (List Char)) (c : TishCmd), chainOf parts = some (some c) →
      ∃ p cp, parts.getLast? = some p ∧
        parse_single_command (Tokenizer.new p) = some cp ∧
        c.lastStage = cp := by
  intro parts
  induction parts with
  | nil =>
    intro c h
    simp [chainOf] at h
  | cons p rest ih =>
    intro c h
    rcases chainOf_cons_some h with ⟨tail, c0, htail, hp, hx⟩
    have hc : c = set_pipe c0 tail := Option.some.inj hx
    cases rest with
    | nil =>
      have : tail = none := by simpa [chainOf] using htail.symm
      subst this
      refine ⟨p, c0, rfl, hp, ?_⟩
      rw [hc, set_pipe_none_self (parse_single_pipe_none hp),
        lastStage_of_pipe_none (parse_single_pipe_none hp)]
    | cons q rs =>
      rcases chainOf_cons_some htail with ⟨tail2, c1, -, -, hx2⟩
      subst hx2
      rcases ih _ htail with ⟨p2, cp2, hlast, hp2, hls⟩
      refine ⟨p2, cp2, ?_, hp2, ?_⟩
      · rw [List.getLast?_cons_cons]
        exact hlast
      · rw [hc, lastStage_set_pipe_some]
        exact hls

theorem parse_single_chainLength_one {t : Tokenizer} {c : TishCmd}
    (h : parse_single_command t = some c) : c.chainLength = 1 := by
  rcases parse_single_form t with hn | ⟨p, a, b, ri, ro, hs⟩
  · rw [hn] at h
    exact absurd h (by simp)
  · rw [hs] at h
    rw [← Option.some.inj h]
    rfl

/-- C3 (counterexample): the statement `echo 'a|b'` contains no unquoted
`|` separator (the pipe is inside single quotes), so the claim predicts one
stage; the parser splits the expanded statement on every `|` character
regardless of quoting (and quote characters are consumed by the expansion
re-tokenization first), producing a two-stage chain. -/
theorem claim_C3_counterexample :
    (parse env0 "echo 'a|b'".data).map (fun l => l.map TishCmd.chainLength) =
      some [2] ∧
    unquotedPipeCount "echo 'a|b'".data 0 = 0 :=
  ⟨rfl, rfl⟩

/-- C3 (amended): for every statement, the number of pipeline stages in the
parsed chain equals the number of nonempty trimmed segments obtained by
splitting the EXPANDED statement on every `|` character — quoted or not —
when the expansion contains a `|`, and is one otherwise. (This equals the
number of unquoted `|` separators plus one only when no `|` is quoted and
no segment is empty.) -/
theorem claim_C3 :
    ∀ (e : Env) (stmt : List Char) (c : TishCmd),
      parse_command e stmt = some (some c) →
      c.chainLength =
        (if (expand e stmt).contains '|'
          then (((splitChar '|' (expand e stmt)).map trimList).filter (fun s => s ≠ [])).length
          else 1) := by
  intro e stmt c h
  unfold parse_command at h
  split at h
  next hp =>
    rw [if_pos hp]
    have := chainOf_length _ _ h
    simpa using this
  next hp =>
    rw [if_neg hp]
    cases hps : parse_single_command (Tokenizer.new (expand e stmt)) with
    | none =>
      rw [hps] at h
      exact absurd h (by simp)
    | some c0 =>
      rw [hps] at h
      have hc : c0 = c := by simpa using h
      rw [← hc]
      exact parse_single_chainLength_one hps

/-- C3 (witness): the amended stage-count law at the concrete statement
`a | b`: the two-stage chain's length matches the two nonempty segments. -/
theorem claim_C3_witness :
    (TishCmd.mk "a" [] false none none
        (some (TishCmd.mk "b" [] false none none none))).chainLength =
      (if (expand env0 "a | b".data).contains '|'
        then (((splitChar '|' (expand env0 "a | b".data)).map trimList).filter
            (fun s => s ≠ [])).length
        else 1) :=
  claim_C3 env0 "a | b".data
    (TishCmd.mk "a" [] false none none
      (some (TishCmd.mk "b" [] false none none none))) (by rfl)

/-! ### Last-stage lemmas (for C1) -/

theorem getLast?_drop_one {l : List (List Char)} (h : 2 ≤ l.length) :
    (l.drop 1).getLast? = l.getLast? := by
  cases l with
  | nil => simp at h
  | cons a rest =>
    cases rest with
    | nil => simp at h
    | cons b rs =>
      simp only [List.drop_one, List.tail_cons]
      rw [List.getLast?_cons_cons]

theorem parse_single_background {t : Tokenizer} {toks : List (List Char)}
    {t2 : Tokenizer}
    (hst : stage_tokens t = some (toks, t2))
    (hlen : 2 ≤ toks.length)
    (hlast : toks.getLast? = some ['&']) :
    parse_single_command t =
      some (TishCmd.mk (String.mk toks.headI)
        (((toks.drop 1).dropLast).map String.mk) true
        (redirLoop t2 none none).1 (redirLoop t2 none none).2 none) := by
  have hne : toks ≠ [] := by
    intro he
    rw [he] at hlen
    simp at hlen
  have hdl : (toks.drop 1).getLast? = some ['&'] := by
    rw [getLast?_drop_one hlen]
    exact hlast
  have hbg : decide ((toks.drop 1).getLast? = some ['&']) = true := by
    rw [hdl]
    rfl
  unfold parse_single_command
  rw [hst]
  simp only [hne, ite_false, if_neg]
  simp only [hbg, ite_true, if_pos]

/-- C1 (counterexample): for the line `a & x | b &` — whose last textual
pipeline stage `b &` does end in a trailing unquoted `&` token — the chain
head is the `a`-stage with `background = false` and with the mid-stage `&`
kept in its args `["&", "x"]`; the background flag is set on the LAST stage
(`b`), not on the chain head, and only the trailing `&` of a stage is
stripped from args. -/
theorem claim_C1_counterexample :
    (parse env0 "a & x | b &".data).map
        (fun l => l.map (fun c => (c.background, c.args))) =
      some [(false, ["&", "x"])] ∧
    (parse env0 "a & x | b &".data).map
        (fun l => l.map (fun c => (c.lastStage.background, c.lastStage.args))) =
      some [(true, ([] : List String))] :=
  ⟨rfl, rfl⟩

/-- C1 (amended): for every statement whose last textual pipeline stage's
pre-redirection token list ends in a trailing `&` token (following at least
the program word), the chain returned by the parser has `background = true`
on the LAST stage of the chain — the chain head only when the pipeline has
a single stage — and that stage's args are its tokens after the program
with the trailing `&` stripped (so the trailing `&` never appears there). -/
theorem claim_C1 :
    ∀ (e : Env) (stmt : List Char) (c : TishCmd) (part : List Char)
      (toks : List (List Char)) (t2 : Tokenizer),
      parse_command e stmt = some (some c) →
      (if (expand e stmt).contains '|'
        then (((splitChar '|' (expand e stmt)).map trimList).filter
            (fun s => s ≠ [])).getLast?
        else some (expand e stmt)) = some part →
      stage_tokens (Tokenizer.new part) = some (toks, t2) →
      2 ≤ toks.length →
      toks.getLast? = some ['&'] →
      c.lastStage.background = true ∧
      c.lastStage.args = ((toks.drop 1).dropLast).map String.mk := by
  intro e stmt c part toks t2 h hsel hst hlen hlast
  unfold parse_command at h
  split at h
  next hp =>
    rw [if_pos hp] at hsel
    rcases chainOf_lastStage _ _ h with ⟨p, cp, hplast, hpcp, hls⟩
    have hpp : p = part := by
      rw [hplast] at hsel
      exact Option.some.inj hsel
    subst hpp
    rw [parse_single_background hst hlen hlast] at hpcp
    have hcp := Option.some.inj hpcp
    rw [hls, ← hcp]
    exact ⟨rfl, rfl⟩
  next hp =>
    rw [if_neg hp] at hsel
    have hpart : part = expand e stmt := (Option.some.inj hsel).symm
    subst hpart
    rw [parse_single_background hst hlen hlast] at h
    have hc := Option.some.inj (Option.some.inj h)
    rw [← hc]
    exact ⟨rfl, rfl⟩

/-- C1 (witness): the amended law at the concrete line `a | b &`: the last
stage (`b`) carries `background = true` with the `&` stripped from args. -/
theorem claim_C1_witness :
    (TishCmd.mk "a" [] false none none
        (some (TishCmd.mk "b" [] true none none none))).lastStage.background = true ∧
    (TishCmd.mk "a" [] false none none
        (some (TishCmd.mk "b" [] true none none none))).lastStage.args =
      ((([['b'], ['&']].drop 1).dropLast).map String.mk) :=
  claim_C1 env0 "a | b &".data
    (TishCmd.mk "a" [] false none none
      (some (TishCmd.mk "b" [] true none none none)))
    "b &".data [['b'], ['&']] { current := none, has_redirection := false }
    (by rfl) (by rfl) (by rfl) (by decide) (by rfl)

/-! ### Quoted-span tokenization lemmas (for C4) -/

theorem byteLen_ascii {cs : List Char} (h : ∀ c ∈ cs, c.utf8Size = 1) :
    byteLen cs = cs.length := by
  induction cs with
  | nil => rfl
  | cons c rest ih =>
    have ht := ih (fun x hx => h x (List.mem_cons_of_mem _ hx))
    simp only [byteLen, List.map_cons, List.sum_cons, List.length_cons]
    rw [h c (List.mem_cons_self _ _)]
    simp only [byteLen] at ht
    omega

theorem byteDrop_ascii :
    ∀ (cs : List Char) (n : Nat), (∀ c ∈ cs, c.utf8Size = 1) → n ≤ cs.length →
      byteDrop n cs = some (cs.drop n) := by
  intro cs
  induction cs with
  | nil =>
    intro n h hle
    have hn : n = 0 := by simpa using hle
    rw [hn]
    rfl
  | cons c rest ih =>
    intro n h hle
    cases n with
    | zero => rfl
    | succ m =>
      have hc := h c (List.mem_cons_self _ _)
      simp only [byteDrop, hc]
      rw [if_pos (by omega)]
      have hm : m + 1 - 1 = m := by omega
      rw [hm]
      rw [ih m (fun x hx => h x (List.mem_cons_of_mem _ hx))
        (by simp only [List.length_cons] at hle; omega)]
      rfl

theorem nextAux_agrees_ascii {cur : List Char} (h : ∀ c ∈ cur, c.utf8Size = 1) :
    nextAuxB cur = some (nextAux cur) := by
  rcases hs : scanWord cur 0 0 with ⟨nxt, stopO⟩
  cases stopO with
  | none =>
    simp [nextAuxB, nextAux, hs]
  | some stop =>
    by_cases hlt : stop < cur.length
    · have hd := byteDrop_ascii cur stop h (Nat.le_of_lt hlt)
      simp [nextAuxB, nextAux, hs, byteLen_ascii h, hlt, hd]
    · simp [nextAuxB, nextAux, hs, byteLen_ascii h, hlt]

/-- The byte/char divergence of `Tokenizer::next` on multi-byte input: on
the line `"α" "c"` the char-count `stop` (4) is smaller than the byte
position of the second span, so the byte-indexed remainder keeps the
separating space; the following `next` call then returns no word and the
`while let` iteration stops after `α`. The char-indexed model instead
yields a remainder starting at the second span. -/
theorem next_multibyte_divergence :
    nextAuxB ('"' :: 'α' :: '"' :: ' ' :: '"' :: 'c' :: ['"']) =
      some (some ['α'], some (' ' :: '"' :: 'c' :: ['"'])) ∧
    (nextAux (' ' :: '"' :: 'c' :: ['"'])).1 = none ∧
    nextAux ('"' :: 'α' :: '"' :: ' ' :: '"' :: 'c' :: ['"']) =
      (some ['α'], some ('"' :: 'c' :: ['"'])) :=
  ⟨rfl, rfl, rfl⟩

theorem sw_in_quote {q : Char} (hq : q = '"' ∨ q = '\'') :
    ∀ (s : List Char) (tail : List Char) (i : Nat),
      (∀ ch ∈ s, ch ≠ '"' ∧ ch ≠ '\'') →
      scanWord (s ++ q :: tail) i 1 =
        (s ++ (scanWord tail (i + s.length + 1) 0).1,
         (scanWord tail (i + s.length + 1) 0).2) := by
  intro s
  induction s with
  | nil =>
    intro tail i h
    simp only [List.nil_append, List.length_nil, Nat.add_zero]
    simp only [scanWord]
    rw [if_pos hq]
    rw [show (1 : Nat) ^^^ 1 = 0 from rfl]
  | cons c s2 ih =>
    intro tail i h
    have hc := h c (List.mem_cons_self _ _)
    have hs2 : ∀ ch ∈ s2, ch ≠ '"' ∧ ch ≠ '\'' :=
      fun ch hch => h ch (List.mem_cons_of_mem _ hch)
    rw [List.cons_append]
    simp only [scanWord]
    rw [if_neg (by rw [not_or]; exact hc)]
    rw [if_neg (by intro hand; exact absurd hand.2 one_ne_zero)]
    rw [ih tail (i + 1) hs2]
    simp only [List.length_cons]
    have hidx : i + 1 + s2.length + 1 = i + (s2.length + 1) + 1 := by omega
    rw [hidx, List.cons_append]

theorem scanWord_quoted {q : Char} (hq : q = '"' ∨ q = '\'')
    (s rest : List Char) (i : Nat)
    (hs : ∀ ch ∈ s, ch ≠ '"' ∧ ch ≠ '\'') :
    scanWord (q :: (s ++ q :: rest)) i 0 =
      (s ++ (scanWord rest (i + s.length + 2) 0).1,
       (scanWord rest (i + s.length + 2) 0).2) := by
  simp only [scanWord]
  rw [if_pos hq]
  rw [show (0 : Nat) ^^^ 1 = 1 from rfl]
  rw [sw_in_quote hq s rest (i + 1) hs]
  have hidx : i + 1 + s.length + 1 = i + s.length + 2 := by omega
  rw [hidx]

theorem collect_of_current_none {t : Tokenizer} (h : t.current = none) :
    t.collect = [] := by
  rw [collect_unfold]
  simp [Tokenizer.next, h]

theorem quotedLine_ne_nil (p : Char × List Char) (xs : List (Char × List Char)) :
    quotedLine (p :: xs) ≠ [] := by
  obtain ⟨q, s⟩ := p
  cases xs <;> simp [quotedLine]

theorem collect_quoted :
    ∀ (spans : List (Char × List Char)) (t : Tokenizer),
      (∀ p ∈ spans, (p.1 = '"' ∨ p.1 = '\'') ∧ p.2 ≠ [] ∧
        ∀ ch ∈ p.2, ch ≠ '"' ∧ ch ≠ '\'') →
      t.current = some (quotedLine spans) →
      spans ≠ [] →
      t.collect = spans.map Prod.snd := by
  intro spans
  induction spans with
  | nil => intro t _ _ h; exact absurd rfl h
  | cons p rest ih =>
    intro t hwf hcur _
    obtain ⟨q, s⟩ := p
    obtain ⟨hq, hs_ne, hs_q⟩ := hwf (q, s) (List.mem_cons_self _ _)
    cases rest with
    | nil =>
      have hql : quotedLine [(q, s)] = q :: (s ++ q :: []) := by
        simp [quotedLine]
      have hsw : scanWord (quotedLine [(q, s)]) 0 0 = (s, none) := by
        rw [hql, scanWord_quoted hq s [] 0 hs_q]
        simp [scanWord]
      have hnext : t.next = (some s, { t with current := none }) := by
        simp only [Tokenizer.next, hcur, nextAux, hsw]
        simp [hs_ne]
      rw [collect_unfold]
      simp only [hnext]
      rw [collect_of_current_none (t := { t with current := none }) rfl]
      rfl
    | cons r rs =>
      have hql : quotedLine ((q, s) :: r :: rs) =
          q :: (s ++ q :: (' ' :: quotedLine (r :: rs))) := by
        simp [quotedLine]
      have hsw : scanWord (quotedLine ((q, s) :: r :: rs)) 0 0 =
          (s, some (s.length + 3)) := by
        rw [hql, scanWord_quoted hq s (' ' :: quotedLine (r :: rs)) 0 hs_q]
        have hsp : scanWord (' ' :: quotedLine (r :: rs)) (0 + s.length + 2) 0 =
            ([], some (0 + s.length + 2 + 1)) := by
          simp [scanWord]
        rw [hsp]
        simp only [List.append_nil]
        have : 0 + s.length + 2 + 1 = s.length + 3 := by omega
        rw [this]
      have hlen : (quotedLine ((q, s) :: r :: rs)).length =
          s.length + 3 + (quotedLine (r :: rs)).length := by
        rw [hql]
        simp
        omega
      have hdrop : (quotedLine ((q, s) :: r :: rs)).drop (s.length + 3) =
          quotedLine (r :: rs) := by
        have hpre : quotedLine ((q, s) :: r :: rs) =
            (q :: (s ++ [q, ' '])) ++ quotedLine (r :: rs) := by
          rw [hql]
          simp
        rw [hpre]
        have hplen : (q :: (s ++ [q, ' '])).length = s.length + 3 := by
          simp
        rw [← hplen, List.drop_left]
      have hnext : t.next =
          (some s, { t with current := some (quotedLine (r :: rs)) }) := by
        simp only [Tokenizer.next, hcur, nextAux, hsw]
        have hstop : s.length + 3 < (quotedLine ((q, s) :: r :: rs)).length := by
          rw [hlen]
          have : 0 < (quotedLine (r :: rs)).length :=
            List.length_pos.mpr (quotedLine_ne_nil r rs)
          omega
        simp only [hstop, if_pos, ite_true, hdrop]
        have hrne : quotedLine (r :: rs) ≠ [] := quotedLine_ne_nil r rs
        simp [hs_ne, hrne]
      rw [collect_unfold]
      simp only [hnext]
      have hrec := ih { t with current := some (quotedLine (r :: rs)) }
        (fun x hx => hwf x (List.mem_cons_of_mem _ hx)) rfl (by simp)
      rw [hrec]
      rfl

/-- C4 (counterexample): tokenizing the line `"a b"` (a single quoted span)
yields the word `a b`: the embedded whitespace is preserved but the quote
characters are consumed by the scanner's quote toggle and are NOT retained
in the word, contradicting the claim that they are kept verbatim. -/
theorem claim_C4_counterexample :
    ((Tokenizer.new ('"' :: 'a' :: ' ' :: 'b' :: ['"'])).next).1 =
      some ['a', ' ', 'b'] ∧
    (['a', ' ', 'b'] : List Char) ≠ '"' :: 'a' :: ' ' :: 'b' :: ['"'] :=
  ⟨rfl, by decide⟩

/-- C4 (amended): for every input line consisting only of quoted spans —
each wrapped in its own single or double quote character — whose contents
are nonempty, quote-free and single-byte, with spans separated by single
spaces, repeated `Tokenizer::next` calls yield exactly one word per quoted
span, with the whitespace inside the quotes preserved in the word and the
surrounding quote characters STRIPPED from the word (consumed by the
in-quote toggle), not retained. The single-byte restriction keeps the
model's char-indexed remainder in agreement with the source's byte-indexed
slicing (`nextAux_agrees_ascii`); on a multi-byte span the program itself
stops early and does not yield one word per span
(`next_multibyte_divergence`), so the law is stated only for single-byte
text. -/
theorem claim_C4 :
    ∀ spans : List (Char × List Char),
      spans ≠ [] →
      (∀ p ∈ spans, (p.1 = '"' ∨ p.1 = '\'') ∧ p.2 ≠ [] ∧
        ∀ ch ∈ p.2, ch ≠ '"' ∧ ch ≠ '\'' ∧ ch.utf8Size = 1) →
      (Tokenizer.new (quotedLine spans)).collect = spans.map Prod.snd := by
  intro spans hne hwf
  exact collect_quoted spans (Tokenizer.new (quotedLine spans))
    (fun p hp => ⟨(hwf p hp).1, (hwf p hp).2.1,
      fun ch hch => ⟨((hwf p hp).2.2 ch hch).1, ((hwf p hp).2.2 ch hch).2.1⟩⟩)
    rfl hne

/-- C4 (witness): the line `"a b" 'c d'` — one double-quoted and one
single-quoted span, ASCII contents — tokenizes to exactly the two span
contents `a b` and `c d`, spaces preserved, quotes stripped. -/
theorem claim_C4_witness :
    (Tokenizer.new (quotedLine
        [('"', ['a', ' ', 'b']), ('\'', ['c', ' ', 'd'])])).collect =
      [['a', ' ', 'b'], ['c', ' ', 'd']] :=
  claim_C4 [('"', ['a', ' ', 'b']), ('\'', ['c', ' ', 'd'])]
    (by decide) (by decide)

end Tish
